import Mathlib

/-!
Verification development for the wishub-skill service.

The Python sources under `wishub_skill/` are shallowly embedded here:
pure helpers become Lean functions, route handlers become functions from a
request, a database snapshot and an environment (the oracle for external
collaborators: the Docker engine, MinIO storage, SQLAlchemy commits and the
system clock) to a response, the updated database snapshot and an audit trace
of the sandbox calls made.  Machine integers are modelled by `Nat`/`Int`
(none of the arithmetic involved can overflow observable ranges), JSON
numbers by `Int` (no claim involves floating point), and fallible external
calls by `Option`/`Except` results chosen by the environment.
-/

namespace WishubSkill

/-! ## JSON-like values

Python values travelling through the service (`inputs`, `outputs`,
step results) are JSON-like: strings, numbers, booleans, `None`,
lists and string-keyed dicts. -/

mutual
inductive Json where
  | str (s : String)
  | num (n : Int)
  | bool (b : Bool)
  | null
  | arr (items : JsonList)
  | obj (fields : JsonObj)
inductive JsonList where
  | nil
  | cons (hd : Json) (tl : JsonList)
inductive JsonObj where
  | nil
  | cons (k : String) (v : Json) (tl : JsonObj)
end

mutual
def Json.beq : Json → Json → Bool
  | .str a, .str b => a == b
  | .num a, .num b => a == b
  | .bool a, .bool b => a == b
  | .null, .null => true
  | .arr a, .arr b => JsonList.beq a b
  | .obj a, .obj b => JsonObj.beq a b
  | _, _ => false
def JsonList.beq : JsonList → JsonList → Bool
  | .nil, .nil => true
  | .cons a as, .cons b bs => Json.beq a b && JsonList.beq as bs
  | _, _ => false
def JsonObj.beq : JsonObj → JsonObj → Bool
  | .nil, .nil => true
  | .cons k v t, .cons k2 v2 t2 => k == k2 && Json.beq v v2 && JsonObj.beq t t2
  | _, _ => false
end

mutual
theorem Json.beqJson_iff : ∀ a b : Json, Json.beq a b = true ↔ a = b
  | .str a, .str b => by simp [Json.beq]
  | .num a, .num b => by simp [Json.beq]
  | .bool a, .bool b => by simp [Json.beq]
  | .null, .null => by simp [Json.beq]
  | .arr a, .arr b => by simp [Json.beq, JsonList.beqJsonList_iff a b]
  | .obj a, .obj b => by simp [Json.beq, JsonObj.beqJsonObj_iff a b]
  | .str _, .num _ | .str _, .bool _ | .str _, .null
  | .str _, .arr _ | .str _, .obj _ => by simp [Json.beq]
  | .num _, .str _ | .num _, .bool _ | .num _, .null
  | .num _, .arr _ | .num _, .obj _ => by simp [Json.beq]
  | .bool _, .str _ | .bool _, .num _ | .bool _, .null
  | .bool _, .arr _ | .bool _, .obj _ => by simp [Json.beq]
  | .null, .str _ | .null, .num _ | .null, .bool _
  | .null, .arr _ | .null, .obj _ => by simp [Json.beq]
  | .arr _, .str _ | .arr _, .num _ | .arr _, .bool _
  | .arr _, .null | .arr _, .obj _ => by simp [Json.beq]
  | .obj _, .str _ | .obj _, .num _ | .obj _, .bool _
  | .obj _, .null | .obj _, .arr _ => by simp [Json.beq]
theorem JsonList.beqJsonList_iff : ∀ a b : JsonList, JsonList.beq a b = true ↔ a = b
  | .nil, .nil => by simp [JsonList.beq]
  | .cons a as, .cons b bs => by
      simp [JsonList.beq, Json.beqJson_iff a b, JsonList.beqJsonList_iff as bs]
  | .nil, .cons _ _ => by simp [JsonList.beq]
  | .cons _ _, .nil => by simp [JsonList.beq]
theorem JsonObj.beqJsonObj_iff : ∀ a b : JsonObj, JsonObj.beq a b = true ↔ a = b
  | .nil, .nil => by simp [JsonObj.beq]
  | .cons k v t, .cons k2 v2 t2 => by
      simp [JsonObj.beq, Json.beqJson_iff v v2, JsonObj.beqJsonObj_iff t t2, and_assoc]
  | .nil, .cons _ _ _ => by simp [JsonObj.beq]
  | .cons _ _ _, .nil => by simp [JsonObj.beq]
end

instance : DecidableEq Json := fun a b =>
  decidable_of_iff (Json.beq a b = true) (Json.beqJson_iff a b)

instance : DecidableEq JsonList := fun a b =>
  decidable_of_iff (JsonList.beq a b = true) (JsonList.beqJsonList_iff a b)

instance : DecidableEq JsonObj := fun a b =>
  decidable_of_iff (JsonObj.beq a b = true) (JsonObj.beqJsonObj_iff a b)

/-- Build a `JsonObj` from a list of key/value pairs. -/
def JsonObj.ofList : List (String × Json) → JsonObj
  | [] => .nil
  | (k, v) :: rest => .cons k v (JsonObj.ofList rest)

/-- Build a `JsonList` from a list of values. -/
def JsonList.ofList : List Json → JsonList
  | [] => .nil
  | v :: rest => .cons v (JsonList.ofList rest)

/-- Python dict lookup on a `JsonObj` (each key occurs once). -/
def JsonObj.lookup : JsonObj → String → Option Json
  | .nil, _ => none
  | .cons k v t, key => if k == key then some v else JsonObj.lookup t key

/-- Python dict lookup `d[k]` / `d.get(k)` on an association list
(first binding wins; dicts hold each key once). -/
def lookupAssoc {α : Type} (m : List (String × α)) (k : String) : Option α :=
  (m.find? (fun p => p.1 == k)).map (fun p => p.2)

/-- Python dict assignment `d[k] = v`: overwrite in place if the key is
present, otherwise append (insertion order preserved). -/
def setAssoc {α : Type} (m : List (String × α)) (k : String) (v : α) :
    List (String × α) :=
  if m.any (fun p => p.1 == k) then
    m.map (fun p => if p.1 == k then (k, v) else p)
  else m ++ [(k, v)]

/-! ## Python string helpers

`str.replace`, `str(...)` and the regex scan used by `_resolve_inputs`
are modelled over `List Char`. -/

/-- The `{` character (written via its code point). -/
def lbrace : Char := Char.ofNat 123

/-- The `}` character (written via its code point). -/
def rbrace : Char := Char.ofNat 125

/-- `\w` of Python's `re` module, on its ASCII subset `[A-Za-z0-9_]`
(the identifiers appearing in workflows are ASCII). -/
def isWordChar (c : Char) : Bool := c.isAlphanum || c == '_'

/-- Does `pat` occur as a prefix of `s`? -/
def startsWithChars : List Char → List Char → Bool
  | [], _ => true
  | _ :: _, [] => false
  | p :: ps, c :: cs => p == c && startsWithChars ps cs

/-- One pass of Python `str.replace` (fuel-indexed; fuel `≥ s.length`
suffices for a non-empty pattern): replace every non-overlapping
occurrence of `pat` in `s` by `rep`, scanning left to right. -/
def replaceAux : Nat → List Char → List Char → List Char → List Char
  | 0, s, _, _ => s
  | _ + 1, [], _, _ => []
  | fuel + 1, c :: rest, pat, rep =>
    if startsWithChars pat (c :: rest) then
      rep ++ replaceAux fuel ((c :: rest).drop pat.length) pat rep
    else
      c :: replaceAux fuel rest pat rep

/-- Python `s.replace(pat, rep)` for a non-empty pattern. -/
def pyReplace (s pat rep : String) : String :=
  (replaceAux s.toList.length s.toList pat.toList rep.toList).asString

mutual
/-- Python `repr`-style rendering, used by `str()` on containers. -/
def pyRepr : Json → String
  | .str s => "'" ++ s ++ "'"
  | .num n => toString n
  | .bool b => if b then "True" else "False"
  | .null => "None"
  | .arr items => "[" ++ pyReprList items ++ "]"
  | .obj fields => "\x7b" ++ pyReprObj fields ++ "\x7d"
/-- Comma-joined `repr`s of list items. -/
def pyReprList : JsonList → String
  | .nil => ""
  | .cons v .nil => pyRepr v
  | .cons v t => pyRepr v ++ ", " ++ pyReprList t
/-- Comma-joined `'key': repr` renderings of dict entries. -/
def pyReprObj : JsonObj → String
  | .nil => ""
  | .cons k v .nil => "'" ++ k ++ "': " ++ pyRepr v
  | .cons k v t => "'" ++ k ++ "': " ++ pyRepr v ++ ", " ++ pyReprObj t
end

/-- Python `str(v)` for a JSON-like value, as used when substituting
`{{step.field}}` placeholders. -/
def pyStr : Json → String
  | .str s => s
  | .num n => toString n
  | .bool b => if b then "True" else "False"
  | .null => "None"
  | .arr items => pyRepr (.arr items)
  | .obj fields => pyRepr (.obj fields)

/-! ## The placeholder scanner

`_resolve_inputs` matches `r'\{\{(\w+)\.(\w+)\}\}'` with `re.findall`.
The pattern is deterministic (both `\w+` are maximal munches followed by
non-word characters), so `findall` is: at each position try the match;
on success record the two captures and continue after the match,
otherwise advance one character. -/

/-- Try to match `{{ident.ident}}` at the head of `l`; on success return
both captures and the remainder of the input after the match. -/
def matchPlaceholder (l : List Char) : Option (String × String × List Char) :=
  match l with
  | c1 :: c2 :: rest =>
    if c1 = lbrace ∧ c2 = lbrace then
      let w1 := rest.takeWhile isWordChar
      let r1 := rest.dropWhile isWordChar
      if w1 = [] then none
      else
        match r1 with
        | c3 :: r2 =>
          if c3 = '.' then
            let w2 := r2.takeWhile isWordChar
            let r3 := r2.dropWhile isWordChar
            if w2 = [] then none
            else
              match r3 with
              | c4 :: c5 :: r4 =>
                if c4 = rbrace ∧ c5 = rbrace then
                  some (w1.asString, w2.asString, r4)
                else none
              | _ => none
          else none
        | [] => none
    else none
  | _ => none

/-- Fuel-indexed scan (fuel `≥ l.length` suffices; every step consumes at
least one character). -/
def findPlaceholdersAux : Nat → List Char → List (String × String)
  | 0, _ => []
  | _ + 1, [] => []
  | fuel + 1, c :: rest =>
    match matchPlaceholder (c :: rest) with
    | some (sid, fld, r) => (sid, fld) :: findPlaceholdersAux fuel r
    | none => findPlaceholdersAux fuel rest

/-- `re.findall(r'\{\{(\w+)\.(\w+)\}\}', s)`. -/
def findPlaceholders (s : String) : List (String × String) :=
  findPlaceholdersAux s.toList.length s.toList

/-- The literal text `{{sid.fld}}` rebuilt by the f-string
`f"{{{{{step_id}.{field}}}}}"` in `_resolve_inputs`. -/
def placeholderText (sid fld : String) : String :=
  "\x7b\x7b" ++ sid ++ "." ++ fld ++ "\x7d\x7d"

/-! ## Step results and `_resolve_inputs`

A step result is the dict produced by `RuntimeEngine.execute_skill`
(`{"task_id", "status", "outputs", "container_id"}` or an error shape)
or by `_execute_step`'s own error handler (`{"status", "error"}`).
Absent keys are `none`. -/

structure StepResult where
  status : String
  outputs : Option (List (String × Json)) := none
  error : Option String := none
  task_id : Option String := none
  container_id : Option String := none
deriving DecidableEq

/-- The inner `resolve_value` of `_resolve_inputs`, on strings: scan for
placeholders once, then for each match `(step_id, field)` replace every
occurrence of the literal placeholder when `step_id` names a successful
step whose outputs contain `field`. -/
def resolveString (ctx : List (String × StepResult)) (s : String) : String :=
  (findPlaceholders s).foldl
    (fun acc m =>
      match lookupAssoc ctx m.1 with
      | some r =>
        if r.status == "success" then
          match lookupAssoc (r.outputs.getD []) m.2 with
          | some v => pyReplace acc (placeholderText m.1 m.2) (pyStr v)
          | none => acc
        else acc
      | none => acc)
    s

/-- `resolve_value`: only strings are transformed; every other value is
returned unchanged (no recursion into lists or dicts). -/
def resolveValue (ctx : List (String × StepResult)) : Json → Json
  | .str s => .str (resolveString ctx s)
  | v => v

/-- Map a function over the values of a `JsonObj`, keeping keys. -/
def JsonObj.mapVals (f : Json → Json) : JsonObj → JsonObj
  | .nil => .nil
  | .cons k v t => .cons k (f v) (JsonObj.mapVals f t)

/-- Map a function over the items of a `JsonList`. -/
def JsonList.mapItems (f : Json → Json) : JsonList → JsonList
  | .nil => .nil
  | .cons v t => .cons (f v) (JsonList.mapItems f t)

/-- `_resolve_inputs(inputs, context)`: map `resolve_value` over the
top-level dict values (or top-level list items), else apply it directly. -/
def resolveInputs (inputs : Json) (ctx : List (String × StepResult)) : Json :=
  match inputs with
  | .obj fields => .obj (fields.mapVals (resolveValue ctx))
  | .arr items => .arr (items.mapItems (resolveValue ctx))
  | v => resolveValue ctx v

/-- Positional access `items[n]` on a `JsonList`. -/
def JsonList.get? : JsonList → Nat → Option Json
  | .nil, _ => none
  | .cons v _, 0 => some v
  | .cons _ t, n + 1 => JsonList.get? t n

/-! ## Decomposed strings

To state how `_resolve_inputs` treats an **arbitrary** scanned string,
strings are decomposed into pieces: literal chunks in which no `{`
occurs, and `{{sid.fld}}` placeholders whose two identifiers are
non-empty `\w+` words.  Every such piece list renders to a string, the
scanner recovers exactly its placeholder list, and each replacement
step rewrites exactly the matching placeholder pieces. -/

/-- A string split into brace-free literal chunks and placeholders. -/
inductive Piece where
  | text (t : String)
  | ph (sid fld : String)
deriving DecidableEq

/-- The character list `{{sid.fld}}`. -/
def phChars (sid fld : String) : List Char :=
  lbrace :: lbrace :: (sid.toList ++ '.' :: (fld.toList ++ [rbrace, rbrace]))

/-- Characters of a piece list. -/
def renderPieces : List Piece → List Char
  | [] => []
  | .text t :: rest => t.toList ++ renderPieces rest
  | .ph s f :: rest => phChars s f ++ renderPieces rest

/-- The string a piece list denotes. -/
def renderString (ps : List Piece) : String := (renderPieces ps).asString

/-- The placeholders of a piece list, in order. -/
def phListOf : List Piece → List (String × String)
  | [] => []
  | .text _ :: rest => phListOf rest
  | .ph s f :: rest => (s, f) :: phListOf rest

/-- A non-empty all-word-character identifier (a `\w+` match). -/
def WordIdent (s : String) : Prop :=
  s.toList ≠ [] ∧ ∀ c ∈ s.toList, isWordChar c = true

/-- No `{` occurs in the string. -/
def BraceFree (s : String) : Prop := ∀ c ∈ s.toList, c ≠ lbrace

/-- Well-formed piece: brace-free chunk, or word-identifier placeholder. -/
def PieceWF : Piece → Prop
  | .text t => BraceFree t
  | .ph s f => WordIdent s ∧ WordIdent f

/-- All pieces well formed. -/
def PiecesWF (ps : List Piece) : Prop := ∀ p ∈ ps, PieceWF p

instance (s : String) : Decidable (WordIdent s) :=
  decidable_of_iff (s.toList ≠ [] ∧ ∀ c ∈ s.toList, isWordChar c = true) Iff.rfl

instance (s : String) : Decidable (BraceFree s) :=
  decidable_of_iff (∀ c ∈ s.toList, c ≠ lbrace) Iff.rfl

instance : (p : Piece) → Decidable (PieceWF p)
  | .text t => decidable_of_iff (BraceFree t) Iff.rfl
  | .ph s f => decidable_of_iff (WordIdent s ∧ WordIdent f) Iff.rfl

instance (ps : List Piece) : Decidable (PiecesWF ps) :=
  decidable_of_iff (∀ p ∈ ps, PieceWF p) Iff.rfl

/-- The substitution `resolve_value` performs for one scanned
placeholder `{{sid.fld}}`: `str(context[sid].outputs[fld])` when step
`sid` is a success whose outputs hold `fld`, nothing otherwise. -/
def phSubst (ctx : List (String × StepResult)) (sid fld : String) : Option String :=
  match lookupAssoc ctx sid with
  | some r =>
    if r.status == "success" then
      (lookupAssoc (r.outputs.getD []) fld).map pyStr
    else none
  | none => none

/-- One fold step of `resolveString`, phrased through `phSubst`. -/
def substAcc (ctx : List (String × StepResult)) (acc : String)
    (m : String × String) : String :=
  match phSubst ctx m.1 m.2 with
  | some rep => pyReplace acc (placeholderText m.1 m.2) rep
  | none => acc

/-- Substitute the placeholders listed in `ms`, when resolvable. -/
def substMs (ctx : List (String × StepResult)) (ms : List (String × String)) :
    Piece → Piece
  | .text t => .text t
  | .ph s f =>
    if (s, f) ∈ ms then
      match phSubst ctx s f with
      | some rep => .text rep
      | none => .ph s f
    else .ph s f

/-- Substitute a placeholder piece when resolvable, else keep it. -/
def substPiece (ctx : List (String × StepResult)) : Piece → Piece
  | .text t => .text t
  | .ph s f =>
    match phSubst ctx s f with
    | some rep => .text rep
    | none => .ph s f

/-- Substitute one placeholder by a literal chunk across a piece list
(the effect of one `str.replace` call on the decomposition). -/
def replacePh (s f rep : String) : Piece → Piece
  | .text t => .text t
  | .ph s' f' => if s' = s ∧ f' = f then .text rep else .ph s' f'

/-- `findPlaceholdersAux` at its canonical fuel. -/
def findList (l : List Char) : List (String × String) :=
  findPlaceholdersAux l.length l

/-- `replaceAux` at its canonical fuel. -/
def replaceList (l pat rep : List Char) : List Char :=
  replaceAux l.length l pat rep

/-! ## Workflow protocol models (`protocol/models.py`) -/

/-- `WorkflowStep` (pydantic).  `depends_on: Optional[List[str]] = None`
is modelled as a list, with `None ↦ []`: the only consumer applies
`step.depends_on or []`, under which `None` and `[]` are indistinguishable. -/
structure WStep where
  step_id : String
  skill_id : String
  inputs : Json
  depends_on : List String := []
deriving DecidableEq

/-- `WorkflowDefinition`. -/
structure WorkflowDef where
  name : String
  description : Option String := none
  steps : List WStep
deriving DecidableEq

/-- `ExecutionMode`. -/
inductive ExecMode where
  | sequential
  | parallel
  | hybrid
deriving DecidableEq

/-- `SkillOrchestrationRequest`; pydantic validates `1 ≤ timeout ≤ 3600`. -/
structure OrchRequest where
  workflow_id : String
  workflow : WorkflowDef
  execution_mode : ExecMode
  timeout : Nat := 300
deriving DecidableEq

/-! ## `_check_cyclic_dependencies` (three-colour DFS)

The Python function builds `graph = {step.step_id: step.depends_on or []}`
(a dict: first-occurrence key order, last-occurrence value on duplicate
ids) and runs a recursive DFS with a `visited` set (black ∪ grey) and a
`rec_stack` set (grey, the current path).  The recursion is embedded with
explicit fuel; `dfsFuel` below is proven sufficient, so the embedded
function is total on the fuel actually used. -/

/-- Keys of a Python dict comprehension: first occurrence order. -/
def dedupFirst : List String → List String
  | [] => []
  | x :: xs => x :: (dedupFirst xs).filter (fun y => y != x)

/-- The `step_id`s in declaration order. -/
def stepIds (steps : List WStep) : List String := steps.map (fun s => s.step_id)

/-- `graph.get(node, [])`: the `depends_on` of the **last** step with this
`step_id` (dict comprehension semantics), `[]` for unknown nodes. -/
def adjGet (steps : List WStep) (n : String) : List String :=
  match steps.reverse.find? (fun s => s.step_id == n) with
  | some s => s.depends_on
  | none => []

/-- The dict iteration order of `for node in graph`. -/
def graphKeys (steps : List WStep) : List String := dedupFirst (stepIds steps)

/-- The inner `for neighbor in graph.get(node, [])` loop of `visit`:
`visitFn` is the recursive call at the remaining fuel.  Returns `none` on
fuel exhaustion inside a recursive call, otherwise
`some (cycle_found, visited')`. -/
def dfsGo (visitFn : String → List String → List String → Option (Bool × List String)) :
    List String → List String → List String → Option (Bool × List String)
  | [], visited, _ => some (false, visited)
  | nb :: rest, visited, recStack =>
    if nb ∈ visited then
      if nb ∈ recStack then some (true, visited)
      else dfsGo visitFn rest visited recStack
    else
      match visitFn nb visited recStack with
      | none => none
      | some (true, v) => some (true, v)
      | some (false, v) => dfsGo visitFn rest v recStack

/-- `visit(node, visited, rec_stack)`: mark the node visited and grey,
scan its neighbours, and (on a `False` return) pop it from the grey set —
which the functional embedding gets for free by not returning `rec_stack`. -/
def dfsVisit (adj : String → List String) :
    Nat → String → List String → List String → Option (Bool × List String)
  | 0, _, _, _ => none
  | fuel + 1, node, visited, recStack =>
    dfsGo (dfsVisit adj fuel) (adj node) (node :: visited) (node :: recStack)

/-- The top-level `for node in graph` loop. -/
def dfsLoop (adj : String → List String) (fuel : Nat) :
    List String → List String → Option Bool
  | [], _ => some false
  | n :: rest, visited =>
    if n ∈ visited then dfsLoop adj fuel rest visited
    else
      match dfsVisit adj fuel n visited [] with
      | none => none
      | some (true, _) => some true
      | some (false, v) => dfsLoop adj fuel rest v

/-- Every node the DFS can ever reach: the graph keys plus every
dependency name. -/
def dfsUniv (steps : List WStep) : List String :=
  graphKeys steps ++ (steps.map (fun s => s.depends_on)).flatten

/-- Fuel sufficient for the full DFS (proven below). -/
def dfsFuel (steps : List WStep) : Nat := (dfsUniv steps).length + 1

/-- `_check_cyclic_dependencies(steps)`. -/
def checkCyclicDependencies (steps : List WStep) : Bool :=
  (dfsLoop (adjGet steps) (dfsFuel steps) (graphKeys steps) []).getD false

/-! ## The dependency-graph cycle, as a mathematical specification -/

/-- The edge relation of an adjacency function. -/
def EdgeA (adj : String → List String) (a b : String) : Prop := b ∈ adj a

/-- One edge of the dependency graph: `b` appears in the `depends_on`
list that the graph dict associates to `a`. -/
def DepEdge (steps : List WStep) : String → String → Prop :=
  EdgeA (adjGet steps)

/-- The dependency graph contains a cycle: some node reaches itself by a
non-empty edge path. -/
def HasCycle (steps : List WStep) : Prop :=
  ∃ n, Relation.TransGen (DepEdge steps) n n

/-! ## Correctness of the DFS

The detector returns `true` iff the graph has a cycle.  `rec_stack` is
the grey set (the current DFS path), `visited` is grey ∪ black.  The key
invariants: `rec_stack` always forms an edge path with the current node
on top (so a back edge really closes a cycle), and when `visit` returns
`False` the black nodes are closed under edges and none of them lies on
a cycle. -/

/-- `rec_stack` as maintained by `visit` is a path: each entry is a
neighbour of the one below it (the list head is the innermost node). -/
def chainStack (adj : String → List String) : List String → Prop
  | [] => True
  | [_] => True
  | a :: b :: t => a ∈ adj b ∧ chainStack adj (b :: t)

/-- Any member of the grey stack reaches the stack's head. -/
theorem chain_reach (adj : String → List String) (t : List String) :
    ∀ h : String, chainStack adj (h :: t) →
      ∀ x ∈ h :: t, x = h ∨ Relation.TransGen (EdgeA adj) x h := by
  induction t with
  | nil =>
    intro h _ x hx
    simp at hx
    exact Or.inl hx
  | cons b t ih =>
    intro h hchain x hx
    rw [chainStack] at hchain
    obtain ⟨hedge, hchain'⟩ := hchain
    rcases List.mem_cons.mp hx with rfl | hx'
    · exact Or.inl rfl
    · rcases ih b hchain' x hx' with rfl | htg
      · exact Or.inr (Relation.TransGen.single hedge)
      · exact Or.inr (htg.tail hedge)

/-- The neighbour loop only ever grows the visited set. -/
theorem dfsGo_mono
    (visitFn : String → List String → List String → Option (Bool × List String))
    (Hvf : ∀ nb vv rr b v, visitFn nb vv rr = some (b, v) → vv ⊆ v) :
    ∀ (l visited recStack : List String) (b : Bool) (v : List String),
      dfsGo visitFn l visited recStack = some (b, v) → visited ⊆ v := by
  intro l
  induction l with
  | nil =>
    intro visited recStack b v heq
    simp only [dfsGo, Option.some.injEq, Prod.mk.injEq] at heq
    exact heq.2 ▸ List.Subset.refl _
  | cons nb rest ih =>
    intro visited recStack b v heq
    simp only [dfsGo] at heq
    split at heq
    · split at heq
      · simp only [Option.some.injEq, Prod.mk.injEq] at heq
        exact heq.2 ▸ List.Subset.refl _
      · exact ih _ _ _ _ heq
    · cases hv : visitFn nb visited recStack with
      | none => rw [hv] at heq; cases heq
      | some pair =>
        obtain ⟨pb, pv⟩ := pair
        rw [hv] at heq
        cases pb with
        | true =>
          simp only [Option.some.injEq, Prod.mk.injEq] at heq
          exact heq.2 ▸ Hvf nb visited recStack true pv hv
        | false =>
          exact fun x hx => ih pv _ _ _ heq (Hvf nb visited recStack false pv hv hx)

/-- `visit` only ever grows the visited set. -/
theorem dfsVisit_mono (adj : String → List String) :
    ∀ (fuel : Nat) (node : String) (visited recStack : List String)
      (b : Bool) (v : List String),
      dfsVisit adj fuel node visited recStack = some (b, v) → visited ⊆ v := by
  intro fuel
  induction fuel with
  | zero => intro node visited recStack b v heq; cases heq
  | succ f ih =>
    intro node visited recStack b v heq
    simp only [dfsVisit] at heq
    have hsub := dfsGo_mono (dfsVisit adj f) (fun nb vv rr bb vvv h => ih nb vv rr bb vvv h)
      (adj node) (node :: visited) (node :: recStack) b v heq
    exact fun x hx => hsub (List.mem_cons_of_mem _ hx)

/-- If the neighbour loop reports a cycle, the graph has one. -/
theorem dfsGo_true_cycle
    (adj : String → List String)
    (visitFn : String → List String → List String → Option (Bool × List String))
    (Hvf : ∀ nb vv rr v, chainStack adj (nb :: rr) →
      visitFn nb vv rr = some (true, v) →
      ∃ n, Relation.TransGen (EdgeA adj) n n)
    (h : String) (old : List String)
    (hchain : chainStack adj (h :: old)) :
    ∀ (l visited : List String) (v : List String),
      l ⊆ adj h →
      dfsGo visitFn l visited (h :: old) = some (true, v) →
      ∃ n, Relation.TransGen (EdgeA adj) n n := by
  intro l
  induction l with
  | nil =>
    intro visited v _ heq
    simp only [dfsGo, Option.some.injEq, Prod.mk.injEq] at heq
    exact absurd heq.1 (by simp)
  | cons nb rest ih =>
    intro visited v hl heq
    have hnb : nb ∈ adj h := hl (List.mem_cons_self nb rest)
    have hrest : rest ⊆ adj h := fun x hx => hl (List.mem_cons_of_mem _ hx)
    simp only [dfsGo] at heq
    split at heq
    · split at heq
      next hgrey =>
        rcases chain_reach adj old h hchain nb hgrey with rfl | htg
        · exact ⟨nb, Relation.TransGen.single hnb⟩
        · exact ⟨nb, htg.tail hnb⟩
      next => exact ih _ _ hrest heq
    · cases hv : visitFn nb visited (h :: old) with
      | none => rw [hv] at heq; cases heq
      | some pair =>
        obtain ⟨pb, pv⟩ := pair
        rw [hv] at heq
        cases pb with
        | true =>
          have hchain' : chainStack adj (nb :: h :: old) := ⟨hnb, hchain⟩
          exact Hvf nb visited (h :: old) pv hchain' hv
        | false => exact ih _ _ hrest heq

/-- If `visit` reports a cycle, the graph has one. -/
theorem dfsVisit_true_cycle (adj : String → List String) :
    ∀ (fuel : Nat) (node : String) (visited recStack : List String)
      (v : List String),
      chainStack adj (node :: recStack) →
      dfsVisit adj fuel node visited recStack = some (true, v) →
      ∃ n, Relation.TransGen (EdgeA adj) n n := by
  intro fuel
  induction fuel with
  | zero => intro node visited recStack v _ heq; cases heq
  | succ f ih =>
    intro node visited recStack v hchain heq
    simp only [dfsVisit] at heq
    exact dfsGo_true_cycle adj (dfsVisit adj f)
      (fun nb vv rr vvv hc hh => ih nb vv rr vvv hc hh)
      node recStack hchain (adj node) (node :: visited) v
      (List.Subset.refl _) heq

/-- Black nodes (visited but not grey) only have edges into black nodes. -/
def blackClosed (adj : String → List String) (V R : List String) : Prop :=
  ∀ b ∈ V, b ∉ R → ∀ c ∈ adj b, c ∈ V ∧ c ∉ R

/-- No black node lies on a cycle. -/
def noCycBlack (adj : String → List String) (V R : List String) : Prop :=
  ∀ b ∈ V, b ∉ R → ¬ Relation.TransGen (EdgeA adj) b b

/-- Everything reachable from a black node is black. -/
theorem black_reach (adj : String → List String) (V R : List String)
    (hB : blackClosed adj V R) (a x : String)
    (ha : a ∈ V) (ha' : a ∉ R)
    (hr : Relation.ReflTransGen (EdgeA adj) a x) : x ∈ V ∧ x ∉ R := by
  induction hr with
  | refl => exact ⟨ha, ha'⟩
  | tail _ hbc ih => exact hB _ ih.1 ih.2 _ hbc

/-- When the neighbour loop finishes without reporting a cycle, the
invariants survive and all scanned neighbours end up visited and
non-grey. -/
theorem dfsGo_false_inv
    (adj : String → List String)
    (visitFn : String → List String → List String → Option (Bool × List String))
    (R : List String)
    (Hvf : ∀ nb vv v, blackClosed adj vv R → noCycBlack adj vv R →
      R ⊆ vv → nb ∉ vv → visitFn nb vv R = some (false, v) →
      vv ⊆ v ∧ nb ∈ v ∧ blackClosed adj v R ∧ noCycBlack adj v R) :
    ∀ (l V v : List String),
      blackClosed adj V R → noCycBlack adj V R → R ⊆ V →
      dfsGo visitFn l V R = some (false, v) →
      V ⊆ v ∧ blackClosed adj v R ∧ noCycBlack adj v R ∧
        ∀ c ∈ l, c ∈ v ∧ c ∉ R := by
  intro l
  induction l with
  | nil =>
    intro V v hB hN hR heq
    simp only [dfsGo, Option.some.injEq, Prod.mk.injEq] at heq
    obtain ⟨-, rfl⟩ := heq
    exact ⟨List.Subset.refl _, hB, hN, by simp⟩
  | cons nb rest ih =>
    intro V v hB hN hR heq
    simp only [dfsGo] at heq
    split at heq
    next hvis =>
      split at heq
      next => simp at heq
      next hgrey =>
        obtain ⟨hVv, hB', hN', hrest⟩ := ih V v hB hN hR heq
        refine ⟨hVv, hB', hN', ?_⟩
        intro c hc
        rcases List.mem_cons.mp hc with rfl | hc'
        · exact ⟨hVv hvis, hgrey⟩
        · exact hrest c hc'
    next hvis =>
      cases hv : visitFn nb V R with
      | none => rw [hv] at heq; cases heq
      | some pair =>
        obtain ⟨pb, pv⟩ := pair
        rw [hv] at heq
        cases pb with
        | true => simp at heq
        | false =>
          obtain ⟨hVpv, hnbpv, hBpv, hNpv⟩ := Hvf nb V pv hB hN hR hvis hv
          have hRpv : R ⊆ pv := fun x hx => hVpv (hR hx)
          obtain ⟨hpvv, hB', hN', hrest⟩ := ih pv v hBpv hNpv hRpv heq
          refine ⟨fun x hx => hpvv (hVpv hx), hB', hN', ?_⟩
          intro c hc
          rcases List.mem_cons.mp hc with rfl | hc'
          · exact ⟨hpvv hnbpv, fun hcontra => hvis (hR hcontra)⟩
          · exact hrest c hc'

/-- When `visit` returns `False`, the node has been fully explored: it is
black afterwards, the black set stays closed, and still no black node
lies on a cycle (so in particular the node itself does not). -/
theorem dfsVisit_false_inv (adj : String → List String) :
    ∀ (fuel : Nat) (node : String) (V R v : List String),
      blackClosed adj V R → noCycBlack adj V R → R ⊆ V → node ∉ V →
      dfsVisit adj fuel node V R = some (false, v) →
      V ⊆ v ∧ node ∈ v ∧ blackClosed adj v R ∧ noCycBlack adj v R := by
  intro fuel
  induction fuel with
  | zero => intro node V R v _ _ _ _ heq; cases heq
  | succ f ih =>
    intro node V R v hB hN hR hnode heq
    simp only [dfsVisit] at heq
    -- invariants for the pushed state (node grey)
    have hB' : blackClosed adj (node :: V) (node :: R) := by
      intro b hb hb' c hc
      have hbne : b ≠ node := fun h => hb' (h ▸ List.mem_cons_self _ _)
      have hbV : b ∈ V := by
        rcases List.mem_cons.mp hb with h | h
        · exact absurd h hbne
        · exact h
      have hbR : b ∉ R := fun h => hb' (List.mem_cons_of_mem _ h)
      obtain ⟨hcV, hcR⟩ := hB b hbV hbR c hc
      have hcne : c ≠ node := fun h => hnode (h ▸ hcV)
      exact ⟨List.mem_cons_of_mem _ hcV,
        fun h => (List.mem_cons.mp h).elim hcne hcR⟩
    have hN' : noCycBlack adj (node :: V) (node :: R) := by
      intro b hb hb'
      have hbne : b ≠ node := fun h => hb' (h ▸ List.mem_cons_self _ _)
      have hbV : b ∈ V := by
        rcases List.mem_cons.mp hb with h | h
        · exact absurd h hbne
        · exact h
      exact hN b hbV (fun h => hb' (List.mem_cons_of_mem _ h))
    have hR' : (node :: R) ⊆ (node :: V) := by
      intro x hx
      rcases List.mem_cons.mp hx with rfl | hx'
      · exact List.mem_cons_self _ _
      · exact List.mem_cons_of_mem _ (hR hx')
    obtain ⟨hVv, hBv, hNv, hAdj⟩ :=
      dfsGo_false_inv adj (dfsVisit adj f) (node :: R)
        (fun nb vv vvv c1 c2 c3 c4 c5 => ih nb vv (node :: R) vvv c1 c2 c3 c4 c5)
        (adj node) (node :: V) v hB' hN' hR' heq
    have hnodev : node ∈ v := hVv (List.mem_cons_self _ _)
    have hVsub : V ⊆ v := fun x hx => hVv (List.mem_cons_of_mem _ hx)
    -- pop the node: black set w.r.t. R now also contains `node`
    have hBpop : blackClosed adj v R := by
      intro b hb hb' c hc
      by_cases hbn : b = node
      · subst hbn
        obtain ⟨hcv, hcR⟩ := hAdj c hc
        exact ⟨hcv, fun h => hcR (List.mem_cons_of_mem _ h)⟩
      · obtain ⟨hcv, hcR⟩ := hBv b hb
          (fun h => (List.mem_cons.mp h).elim hbn hb') c hc
        exact ⟨hcv, fun h => hcR (List.mem_cons_of_mem _ h)⟩
    have hNpop : noCycBlack adj v R := by
      intro b hb hb' hcyc
      by_cases hbn : b = node
      · subst hbn
        obtain ⟨c, hedge, hreach⟩ := Relation.TransGen.head'_iff.mp hcyc
        obtain ⟨hcv, hcR⟩ := hAdj c hedge
        obtain ⟨hbv2, hbR2⟩ := black_reach adj v (b :: R) hBv c b hcv hcR hreach
        exact hbR2 (List.mem_cons_self _ _)
      · exact hNv b hb (fun h => (List.mem_cons.mp h).elim hbn hb') hcyc
    exact ⟨hVsub, hnodev, hBpop, hNpop⟩

/-! ### Fuel sufficiency -/

/-- Number of universe nodes not yet visited. -/
def mUnv (univ V : List String) : Nat :=
  (univ.filter (fun x => decide (x ∉ V))).length

theorem length_filter_le_of_imp {α : Type} (l : List α) (p q : α → Bool)
    (h : ∀ a, p a = true → q a = true) :
    (l.filter p).length ≤ (l.filter q).length := by
  induction l with
  | nil => simp
  | cons a t ih =>
    by_cases hp : p a = true
    · rw [List.filter_cons_of_pos hp, List.filter_cons_of_pos (h a hp)]
      simpa using ih
    · rw [List.filter_cons_of_neg (by simpa using hp)]
      by_cases hq : q a = true
      · rw [List.filter_cons_of_pos hq]
        exact Nat.le_succ_of_le ih
      · rw [List.filter_cons_of_neg (by simpa using hq)]
        exact ih

theorem mUnv_anti (univ V V' : List String) (h : V ⊆ V') :
    mUnv univ V' ≤ mUnv univ V := by
  refine length_filter_le_of_imp univ _ _ ?_
  intro a ha
  simp only [decide_eq_true_eq] at ha ⊢
  exact fun hmem => ha (h hmem)

theorem mUnv_lt_of_cons (univ V : List String) (node : String)
    (hu : node ∈ univ) (hv : node ∉ V) :
    mUnv univ (node :: V) < mUnv univ V := by
  induction univ with
  | nil => cases hu
  | cons a t ih =>
    by_cases han : a = node
    · subst han
      unfold mUnv
      rw [List.filter_cons_of_neg (by simp), List.filter_cons_of_pos (by simpa using hv)]
      have := length_filter_le_of_imp t
        (fun x => decide (x ∉ a :: V)) (fun x => decide (x ∉ V))
        (by intro x hx
            simp only [decide_eq_true_eq, List.mem_cons] at hx ⊢
            exact fun h => hx (Or.inr h))
      exact Nat.lt_succ_of_le this
    · have hu' : node ∈ t := by
        rcases List.mem_cons.mp hu with h | h
        · exact absurd h.symm han
        · exact h
      have core := ih hu'
      unfold mUnv at core ⊢
      by_cases haV : a ∈ V
      · rw [List.filter_cons_of_neg (by simpa using fun h : a ∉ node :: V => h (List.mem_cons_of_mem _ haV)),
          List.filter_cons_of_neg (by simpa using haV)]
        · exact core
      · have hanv : a ∉ node :: V := by
          intro h
          rcases List.mem_cons.mp h with h' | h'
          · exact han h'
          · exact haV h'
        rw [List.filter_cons_of_pos (by simpa using hanv),
          List.filter_cons_of_pos (by simpa using haV)]
        exact Nat.succ_lt_succ core

theorem mUnv_le_length (univ V : List String) : mUnv univ V ≤ univ.length :=
  List.length_filter_le _ univ

/-- With enough fuel the neighbour loop cannot run out. -/
theorem dfsGo_some
    (adj : String → List String) (univ : List String) (f : Nat)
    (Hvf : ∀ (nb : String) (vv rr : List String), nb ∈ univ → nb ∉ vv →
      mUnv univ vv < f → dfsVisit adj f nb vv rr ≠ none) :
    ∀ (l V R : List String), l ⊆ univ → mUnv univ V < f →
      dfsGo (dfsVisit adj f) l V R ≠ none := by
  intro l
  induction l with
  | nil => intro V R _ _ h; simp [dfsGo] at h
  | cons nb rest ih =>
    intro V R hl hm heq
    have hnbu : nb ∈ univ := hl (List.mem_cons_self nb rest)
    have hrest : rest ⊆ univ := fun x hx => hl (List.mem_cons_of_mem _ hx)
    simp only [dfsGo] at heq
    split at heq
    · split at heq
      · cases heq
      · exact ih V R hrest hm heq
    next hvis =>
      cases hv : dfsVisit adj f nb V R with
      | none => exact Hvf nb V R hnbu hvis hm hv
      | some pair =>
        obtain ⟨pb, pv⟩ := pair
        rw [hv] at heq
        cases pb with
        | true => cases heq
        | false =>
          have hVpv : V ⊆ pv := dfsVisit_mono adj f nb V R false pv hv
          exact ih pv R hrest (Nat.lt_of_le_of_lt (mUnv_anti univ V pv hVpv) hm) heq

/-- With enough fuel `visit` cannot run out. -/
theorem dfsVisit_some (adj : String → List String) (univ : List String)
    (hadj : ∀ k, adj k ⊆ univ) :
    ∀ (fuel : Nat) (node : String) (V R : List String),
      node ∈ univ → node ∉ V → mUnv univ V < fuel →
      dfsVisit adj fuel node V R ≠ none := by
  intro fuel
  induction fuel with
  | zero => intro node V R _ _ hm; omega
  | succ f ih =>
    intro node V R hu hv hm heq
    simp only [dfsVisit] at heq
    have hdrop : mUnv univ (node :: V) < f := by
      have h1 := mUnv_lt_of_cons univ V node hu hv
      omega
    refine dfsGo_some adj univ f ?_ (adj node) (node :: V) (node :: R)
      (hadj node) hdrop heq
    intro nb vv rr hnb hnvv hmm
    exact ih nb vv rr hnb hnvv hmm

/-- With fuel `univ.length + 1` the whole loop cannot run out. -/
theorem dfsLoop_some (adj : String → List String) (univ : List String)
    (hadj : ∀ k, adj k ⊆ univ) :
    ∀ (l V : List String), l ⊆ univ →
      dfsLoop adj (univ.length + 1) l V ≠ none := by
  intro l
  induction l with
  | nil => intro V _ h; simp [dfsLoop] at h
  | cons n rest ih =>
    intro V hl heq
    have hnu : n ∈ univ := hl (List.mem_cons_self n rest)
    have hrest : rest ⊆ univ := fun x hx => hl (List.mem_cons_of_mem _ hx)
    simp only [dfsLoop] at heq
    split at heq
    · exact ih V hrest heq
    next hv =>
      cases hvis : dfsVisit adj (univ.length + 1) n V [] with
      | none =>
        exact dfsVisit_some adj univ hadj (univ.length + 1) n V [] hnu hv
          (Nat.lt_succ_of_le (mUnv_le_length univ V)) hvis
      | some pair =>
        obtain ⟨pb, pv⟩ := pair
        rw [hvis] at heq
        cases pb with
        | true => cases heq
        | false => exact ih pv hrest heq

/-! ### Top-level loop -/

/-- If the loop finishes `False`, every listed node ends black and no
black node lies on a cycle. -/
theorem dfsLoop_false_inv (adj : String → List String) (fuel : Nat) :
    ∀ (l V : List String), blackClosed adj V [] → noCycBlack adj V [] →
      dfsLoop adj fuel l V = some false →
      ∃ v, V ⊆ v ∧ (∀ n ∈ l, n ∈ v) ∧ noCycBlack adj v [] := by
  intro l
  induction l with
  | nil =>
    intro V hB hN _
    exact ⟨V, List.Subset.refl _, by simp, hN⟩
  | cons n rest ih =>
    intro V hB hN heq
    simp only [dfsLoop] at heq
    split at heq
    next hvis =>
      obtain ⟨v, hVv, hall, hN'⟩ := ih V hB hN heq
      exact ⟨v, hVv, by
        intro x hx
        rcases List.mem_cons.mp hx with rfl | hx'
        · exact hVv hvis
        · exact hall x hx', hN'⟩
    next hvis =>
      cases hv : dfsVisit adj fuel n V [] with
      | none => rw [hv] at heq; cases heq
      | some pair =>
        obtain ⟨pb, pv⟩ := pair
        rw [hv] at heq
        cases pb with
        | true => cases heq
        | false =>
          obtain ⟨hVpv, hnpv, hBpv, hNpv⟩ :=
            dfsVisit_false_inv adj fuel n V [] pv hB hN (by simp) hvis hv
          obtain ⟨v, hpvv, hall, hN'⟩ := ih pv hBpv hNpv heq
          exact ⟨v, fun x hx => hpvv (hVpv hx), by
            intro x hx
            rcases List.mem_cons.mp hx with rfl | hx'
            · exact hpvv hnpv
            · exact hall x hx', hN'⟩

/-- If the loop reports `True`, the graph has a cycle. -/
theorem dfsLoop_true_cycle (adj : String → List String) (fuel : Nat) :
    ∀ (l V : List String), dfsLoop adj fuel l V = some true →
      ∃ n, Relation.TransGen (EdgeA adj) n n := by
  intro l
  induction l with
  | nil => intro V heq; simp [dfsLoop] at heq
  | cons n rest ih =>
    intro V heq
    simp only [dfsLoop] at heq
    split at heq
    · exact ih V heq
    · cases hv : dfsVisit adj fuel n V [] with
      | none => rw [hv] at heq; cases heq
      | some pair =>
        obtain ⟨pb, pv⟩ := pair
        rw [hv] at heq
        cases pb with
        | true =>
          exact dfsVisit_true_cycle adj fuel n V [] pv trivial hv
        | false => exact ih pv heq

/-! ### The detector decides cycle existence -/

theorem mem_dedupFirst (l : List String) (x : String) :
    x ∈ dedupFirst l ↔ x ∈ l := by
  induction l with
  | nil => simp [dedupFirst]
  | cons a t ih =>
    simp only [dedupFirst, List.mem_cons, List.mem_filter]
    constructor
    · rintro (rfl | ⟨hx, -⟩)
      · exact Or.inl rfl
      · exact Or.inr (ih.mp hx)
    · rintro (rfl | hx)
      · exact Or.inl rfl
      · by_cases hax : x = a
        · exact Or.inl hax
        · exact Or.inr ⟨ih.mpr hx, by simpa using hax⟩

theorem adjGet_subset_univ (steps : List WStep) (k : String) :
    adjGet steps k ⊆ dfsUniv steps := by
  intro x hx
  unfold adjGet at hx
  cases hfind : (steps.reverse.find? (fun s => s.step_id == k)) with
  | none => rw [hfind] at hx; cases hx
  | some s =>
    rw [hfind] at hx
    have hs : s ∈ steps := by
      have := List.mem_of_find?_eq_some hfind
      exact List.mem_reverse.mp this
    refine List.mem_append_right _ ?_
    rw [List.mem_flatten]
    exact ⟨s.depends_on, List.mem_map_of_mem (fun st => st.depends_on) hs, hx⟩

theorem graphKeys_subset_univ (steps : List WStep) :
    graphKeys steps ⊆ dfsUniv steps :=
  fun _ hx => List.mem_append_left _ hx

/-- A node on a cycle has an outgoing edge, hence is a graph key. -/
theorem cycle_node_mem_keys (steps : List WStep) (n : String)
    (h : Relation.TransGen (DepEdge steps) n n) : n ∈ graphKeys steps := by
  obtain ⟨c, hedge, -⟩ := Relation.TransGen.head'_iff.mp h
  have hne : adjGet steps n ≠ [] := by
    intro hnil
    rw [DepEdge, EdgeA, hnil] at hedge
    cases hedge
  unfold adjGet at hne
  cases hfind : (steps.reverse.find? (fun s => s.step_id == n)) with
  | none => rw [hfind] at hne; exact absurd rfl hne
  | some s =>
    have hid : s.step_id = n := by
      have := List.find?_some hfind
      simpa using this
    have hs : s ∈ steps := List.mem_reverse.mp (List.mem_of_find?_eq_some hfind)
    rw [graphKeys, mem_dedupFirst]
    rw [stepIds]
    exact hid ▸ List.mem_map_of_mem (fun st => st.step_id) hs

/-- The embedded `_check_cyclic_dependencies` returns `true` iff the
dependency graph `step_id → depends_on` contains a cycle. -/
theorem checkCyclic_iff (steps : List WStep) :
    checkCyclicDependencies steps = true ↔ HasCycle steps := by
  have hsome := dfsLoop_some (adjGet steps) (dfsUniv steps)
    (adjGet_subset_univ steps) (graphKeys steps) []
    (graphKeys_subset_univ steps)
  constructor
  · intro hcheck
    unfold checkCyclicDependencies at hcheck
    cases hloop : dfsLoop (adjGet steps) (dfsFuel steps) (graphKeys steps) [] with
    | none => exact absurd hloop hsome
    | some b =>
      rw [hloop] at hcheck
      simp only [Option.getD_some] at hcheck
      subst hcheck
      exact dfsLoop_true_cycle (adjGet steps) (dfsFuel steps)
        (graphKeys steps) [] hloop
  · intro hcyc
    by_contra hcheck
    unfold checkCyclicDependencies at hcheck
    cases hloop : dfsLoop (adjGet steps) (dfsFuel steps) (graphKeys steps) [] with
    | none => exact absurd hloop hsome
    | some b =>
      rw [hloop] at hcheck
      simp only [Option.getD_some] at hcheck
      cases b with
      | true => exact hcheck rfl
      | false =>
        obtain ⟨v, -, hall, hN⟩ :=
          dfsLoop_false_inv (adjGet steps) (dfsFuel steps) (graphKeys steps) []
            (by intro b hb; cases hb) (by intro b hb; cases hb) hloop
        obtain ⟨n, hn⟩ := hcyc
        exact hN n (hall n (cycle_node_mem_keys steps n hn)) (by simp) hn

/-! ## Database rows (`server/database.py`) -/

/-- `SkillLanguage`. -/
inductive Lang where
  | python
  | typescript
  | go
  | java
  | rust
deriving DecidableEq

/-- The columns of a `skills` row that the handlers read. -/
structure SkillRow where
  skill_id : String
  skill_name : String := ""
  version : String := ""
  language : Lang := .python
  code_url : Option String := none
  timeout : Nat := 30
  created_at : String := ""
deriving DecidableEq

/-- A `workflow_executions` row. -/
structure WorkflowExecRow where
  execution_id : String
  workflow_id : String
  status : String
  results : Option (List (String × StepResult)) := none
  error_message : Option String := none
  execution_time : Option Nat := none
deriving DecidableEq

/-- The tables touched by `/skill/orchestrate`.  `workflows.workflow_id`
carries a unique constraint, so only the ids are tracked. -/
structure OrchDb where
  skills : List SkillRow
  workflows : List String
  workflowExecutions : List WorkflowExecRow
deriving DecidableEq

/-- One call to `runtime_engine.execute_skill` (the audit trace). -/
structure SandboxCall where
  skill_id : String
  inputs : Json
  timeout : Nat
deriving DecidableEq

/-- The environment of one orchestration request: the generated
execution id, the runtime engine as an oracle, the SQLAlchemy commit
oracle (`commitFail k` is the error raised by the `k`-th `db.commit()`
of the request, counted in call order), and the measured wall time. -/
structure OrchEnv where
  genExecutionId : String
  runSkill : String → Json → Nat → StepResult
  commitFail : Nat → Option String
  elapsedSeconds : Nat

/-- `SkillOrchestrationResponse` (the `error` dict split into its two
keys). -/
structure OrchResponse where
  status : String
  execution_id : Option String := none
  results : Option (List (String × StepResult)) := none
  execution_time : Option Nat := none
  message : Option String := none
  errorCode : Option String := none
  errorDetails : Option String := none
deriving DecidableEq

/-- What one orchestration request produced: the HTTP response, the
database afterwards, and the sandbox calls made. -/
structure OrchOutcome where
  response : OrchResponse
  db : OrchDb
  calls : List SandboxCall
deriving DecidableEq

/-! ## `_execute_step` and `_execute_workflow` -/

/-- `select(Skill).where(Skill.skill_id == ...)`. -/
def findSkill (db : OrchDb) (sid : String) : Option SkillRow :=
  db.skills.find? (fun s => s.skill_id == sid)

/-- `_execute_step(step, db, context)`: look the skill up, resolve the
inputs against the context, run the sandbox; any exception becomes an
`error` outcome.  Returns the outcome and the sandbox calls made. -/
def executeStep (db : OrchDb) (env : OrchEnv)
    (ctx : List (String × StepResult)) (step : WStep) :
    StepResult × List SandboxCall :=
  match findSkill db step.skill_id with
  | none =>
    ({ status := "error", error := some ("Skill 不存在: " ++ step.skill_id) }, [])
  | some skill =>
    let resolved := resolveInputs step.inputs ctx
    (env.runSkill step.skill_id resolved skill.timeout,
      [⟨step.skill_id, resolved, skill.timeout⟩])

/-- Sequential mode: run the steps in declaration order, each seeing the
accumulated results. -/
def execSequential (db : OrchDb) (env : OrchEnv) :
    List WStep → List (String × StepResult) → List SandboxCall →
    List (String × StepResult) × List SandboxCall
  | [], results, calls => (results, calls)
  | step :: rest, results, calls =>
    let (r, cs) := executeStep db env results step
    execSequential db env rest (setAssoc results step.step_id r) (calls ++ cs)

/-- First pass of parallel mode: steps **with** dependencies are awaited
inline during the loop (results threaded); steps without dependencies
are collected to be gathered afterwards, in order. -/
def execParallelPass (db : OrchDb) (env : OrchEnv) :
    List WStep → List (String × StepResult) → List SandboxCall →
    List WStep →
    List (String × StepResult) × List SandboxCall × List WStep
  | [], results, calls, pending => (results, calls, pending)
  | step :: rest, results, calls, pending =>
    if step.depends_on.isEmpty then
      execParallelPass db env rest results calls (pending ++ [step])
    else
      let (r, cs) := executeStep db env results step
      execParallelPass db env rest (setAssoc results step.step_id r)
        (calls ++ cs) pending

/-- Run gathered coroutines: each sees the shared results dict as it
stood when the gather started (sibling outcomes are only written back
after the gather completes). -/
def runPending (db : OrchDb) (env : OrchEnv)
    (ctx : List (String × StepResult)) :
    List WStep → List (String × StepResult) × List SandboxCall
  | [] => ([], [])
  | step :: rest =>
    let (r, cs) := executeStep db env ctx step
    let (rs, css) := runPending db env ctx rest
    ((step.step_id, r) :: rs, cs ++ css)

/-- Parallel mode. -/
def execParallel (db : OrchDb) (env : OrchEnv) (steps : List WStep) :
    List (String × StepResult) × List SandboxCall :=
  let (results1, calls1, pending) := execParallelPass db env steps [] [] []
  let (outs, calls2) := runPending db env results1 pending
  (outs.foldl (fun acc p => setAssoc acc p.1 p.2) results1, calls1 ++ calls2)

/-- `dependency_map[sid]`: the steps that list `sid` in `depends_on`,
in declaration order, once per occurrence. -/
def dependents (steps : List WStep) (sid : String) : List WStep :=
  steps.flatMap (fun s =>
    (s.depends_on.filter (fun d => d == sid)).map (fun _ => s))

/-- `reverse_map[step_id]`: the dependencies accumulated for this id. -/
def revDeps (steps : List WStep) (sid : String) : List String :=
  (steps.filter (fun s => s.step_id == sid)).flatMap (fun s => s.depends_on)

/-- The post-gather assignment loop of `_execute_dag`: store each
outcome, mark the step completed, and enqueue any dependent whose
dependencies are now all completed. -/
def dagAssign (steps : List WStep) :
    List (String × StepResult) → List (String × StepResult) →
    List String → List WStep →
    List (String × StepResult) × List String × List WStep
  | [], results, completed, queue => (results, completed, queue)
  | (sid, r) :: rest, results, completed, queue =>
    let results' := setAssoc results sid r
    let completed' := if sid ∈ completed then completed else completed ++ [sid]
    let ready := (dependents steps sid).filter
      (fun d => (revDeps steps d.step_id).all (fun dep => completed'.contains dep))
    dagAssign steps rest results' completed' (queue ++ ready)

/-- The `while queue` loop of `_execute_dag`, with explicit fuel.  For a
validated workflow (unique step ids, acyclic) every step is enqueued at
most once per dependency edge, so `steps.length * (Σ |depends_on| + 1)
+ 1` rounds are never exhausted; the fuel-0 fallback returns the results
accumulated so far. -/
def execDagRounds (db : OrchDb) (env : OrchEnv) (steps : List WStep) :
    Nat → List WStep → List String → List (String × StepResult) →
    List SandboxCall →
    List (String × StepResult) × List SandboxCall
  | 0, _, _, results, calls => (results, calls)
  | fuel + 1, queue, completed, results, calls =>
    if queue.isEmpty then (results, calls)
    else
      let (outs, newCalls) := runPending db env results queue
      let (results', completed', queue') := dagAssign steps outs results completed []
      execDagRounds db env steps fuel queue' completed' results' (calls ++ newCalls)

/-- Hybrid mode (`_execute_dag`). -/
def execDag (db : OrchDb) (env : OrchEnv) (steps : List WStep) :
    List (String × StepResult) × List SandboxCall :=
  let fuel := steps.length * ((steps.map (fun s => s.depends_on.length)).sum + 1) + 1
  execDagRounds db env steps fuel (steps.filter (fun s => s.depends_on.isEmpty))
    [] [] []

/-- `_execute_workflow(steps, mode, db)`. -/
def executeWorkflow (steps : List WStep) (mode : ExecMode) (db : OrchDb)
    (env : OrchEnv) : List (String × StepResult) × List SandboxCall :=
  match mode with
  | .sequential => execSequential db env steps [] []
  | .parallel => execParallel db env steps
  | .hybrid => execDag db env steps

/-! ## `orchestrate_skills` -/

/-- Overwrite a workflow-execution row in place. -/
def updateExecRow (db : OrchDb) (eid : String)
    (f : WorkflowExecRow → WorkflowExecRow) : OrchDb :=
  { db with workflowExecutions :=
      db.workflowExecutions.map (fun r => if r.execution_id == eid then f r else r) }

/-- `orchestrate_skills(request, db)`.  Failed commits leave the
database at the last successfully committed state (SQLAlchemy rolls the
transaction back); the unique constraint on `workflows.workflow_id`
makes the first commit raise `IntegrityError` when the id is already
persisted. -/
def orchestrateSkills (req : OrchRequest) (db : OrchDb) (env : OrchEnv) :
    OrchOutcome :=
  if req.workflow.steps.isEmpty then
    -- `raise ValueError(...)`, caught by the outer handler → WORKFLOW_999
    ⟨⟨"error", none, none, none, some "编排失败", some "WORKFLOW_999",
      some "工作流必须包含至少一个步骤"⟩, db, []⟩
  else if checkCyclicDependencies req.workflow.steps then
    ⟨⟨"error", none, none, none, some "工作流存在循环依赖", some "WORKFLOW_002",
      some "检测到循环依赖"⟩, db, []⟩
  else if req.workflow_id ∈ db.workflows then
    -- unique-constraint violation on the first commit → outer handler
    ⟨⟨"error", none, none, none, some "编排失败", some "WORKFLOW_999",
      some "UNIQUE constraint failed: workflows.workflow_id"⟩, db, []⟩
  else
    match env.commitFail 0 with
    | some msg =>
      ⟨⟨"error", none, none, none, some "编排失败", some "WORKFLOW_999",
        some msg⟩, db, []⟩
    | none =>
      let db1 := { db with workflows := db.workflows ++ [req.workflow_id] }
      match env.commitFail 1 with
      | some msg =>
        ⟨⟨"error", none, none, none, some "编排失败", some "WORKFLOW_999",
          some msg⟩, db1, []⟩
      | none =>
        let execRow : WorkflowExecRow :=
          ⟨env.genExecutionId, req.workflow_id, "running", none, none, none⟩
        let db2 := { db1 with
          workflowExecutions := db1.workflowExecutions ++ [execRow] }
        let rc := executeWorkflow req.workflow.steps req.execution_mode db2 env
        match env.commitFail 2 with
        | none =>
          let db3 := updateExecRow db2 env.genExecutionId
            (fun r =>
              { r with
                status := "success"
                results := some rc.1
                execution_time := some env.elapsedSeconds })
          ⟨⟨"success", some env.genExecutionId, some rc.1,
            some env.elapsedSeconds, some "工作流执行成功", none, none⟩,
            db3, rc.2⟩
        | some msg =>
          -- inner handler: record the failure and commit again; if that
          -- commit also fails the exception escapes to the outer handler
          match env.commitFail 3 with
          | none =>
            let db3 := updateExecRow db2 env.genExecutionId
              (fun r =>
                { r with
                  status := "error"
                  error_message := some msg })
            ⟨⟨"error", some env.genExecutionId, none, none, some "执行失败",
              some "WORKFLOW_003", some msg⟩, db3, rc.2⟩
          | some msg2 =>
            ⟨⟨"error", none, none, none, some "编排失败", some "WORKFLOW_999",
              some msg2⟩, db2, rc.2⟩

/-! ## The runtime engine (`server/runtime.py`)

`execute_skill` builds a container name, downloads the code (the MinIO
download is a stub returning `""`), builds the language command and runs
`_run_container` in a worker thread.  The Docker engine is an oracle:
the environment decides whether the image is present, whether a pull
succeeds, and how the container run ends.  Container existence and the
number of cleanup attempts are tracked explicitly so that the cleanup
invariant can be stated. -/

/-- The escapes `json.dumps` applies inside string literals (quote,
backslash and the common control characters; `\uXXXX` escapes for other
control or non-ASCII characters are not modelled — no command string is
inspected by a theorem below). -/
def escapeJsonChar (c : Char) : String :=
  if c = '"' then "\\\""
  else if c = '\\' then "\\\\"
  else if c = '\n' then "\\n"
  else if c = '\t' then "\\t"
  else if c = '\r' then "\\r"
  else String.singleton c

/-- Apply `escapeJsonChar` across a string. -/
def escapeJsonString (s : String) : String :=
  String.join (s.toList.map escapeJsonChar)

mutual
/-- `json.dumps` with default separators, for the command strings. -/
def jsonDumps : Json → String
  | .str s => "\"" ++ escapeJsonString s ++ "\""
  | .num n => toString n
  | .bool b => if b then "true" else "false"
  | .null => "null"
  | .arr items => "[" ++ jsonDumpsList items ++ "]"
  | .obj fields => "\x7b" ++ jsonDumpsObj fields ++ "\x7d"
def jsonDumpsList : JsonList → String
  | .nil => ""
  | .cons v .nil => jsonDumps v
  | .cons v t => jsonDumps v ++ ", " ++ jsonDumpsList t
def jsonDumpsObj : JsonObj → String
  | .nil => ""
  | .cons k v .nil => "\"" ++ k ++ "\": " ++ jsonDumps v
  | .cons k v t => "\"" ++ k ++ "\": " ++ jsonDumps v ++ ", " ++ jsonDumpsObj t
end

/-- `self.language_images`. -/
def languageImage : Lang → String
  | .python => "python:3.11-slim"
  | .typescript => "node:20-slim"
  | .go => "golang:1.21-alpine"
  | .java => "openjdk:21-slim"
  | .rust => "rust:1.75-slim"

/-- The text the `f"不支持的语言: {language}"` messages embed.
`skill.language` is the database row's column, a plain string (the
`SkillLanguage` str-enum is stored by value), so the f-string renders
the bare language name. -/
def langEnumStr : Lang → String
  | .python => "python"
  | .typescript => "typescript"
  | .go => "go"
  | .java => "java"
  | .rust => "rust"

/-- `_build_command(language, inputs)`: `none` models the `ValueError`
raised for `java` and `rust`. -/
def buildCommand (language : Lang) (inputs : Json) : Option (List String) :=
  match language with
  | .python =>
    some ["python", "-c",
      "import sys, json; inputs = json.loads('" ++ jsonDumps inputs ++
        "'); exec(open('/app/skill.py').read(), globals())"]
  | .typescript =>
    some ["npx", "-y", "ts-node", "-e",
      "const inputs = JSON.parse('" ++ jsonDumps inputs ++
        "'); eval(require('fs').readFileSync('/app/skill.ts', 'utf8'));"]
  | .go =>
    some ["sh", "-c",
      "echo '" ++ jsonDumps inputs ++
        "' > /app/inputs.json && go run /app/skill.go"]
  | _ => none

/-- What stdout/exit-code `_run_container` hands back when the run
returns a handle. -/
structure RunOutput where
  stdout : String
  exit_code : Int
deriving DecidableEq

/-- How the Docker engine resolves one `containers.run` call. -/
inductive DockerRunOutcome where
  /-- The engine fails before a container exists (API error, create
  failure): an exception, no container. -/
  | createFail (msg : String)
  /-- The container was created and ran to completion in
  `durationSeconds` of wall time, producing `logs` and `exitCode`. -/
  | ranOk (logs : String) (exitCode : Int) (durationSeconds : Nat)
  /-- The container was created but the client raised `ContainerError`
  after `durationSeconds`. -/
  | ranError (msg : String) (durationSeconds : Nat)
deriving DecidableEq

/-- The oracle for one `execute_skill` call. -/
structure RuntimeEnv where
  genTaskId : String
  imagePresent : Bool
  pullResult : Except String Unit
  runOutcome : DockerRunOutcome
  /-- whether `container.remove(force=True)` succeeds. -/
  removeWorks : Bool

/-- What containers exist, plus how many removal attempts were made. -/
structure ContainerState where
  containers : List String
  cleanupAttempts : Nat
deriving DecidableEq

/-- The exceptions `execute_skill` distinguishes.  `timeoutError`
(`asyncio.TimeoutError`) has a handler in the source but nothing in
`_run_container` can raise it — there is no `asyncio.wait_for` around
the worker thread. -/
inductive RtExc where
  | containerError (msg : String)
  | timeoutError
  | otherError (msg : String)
deriving DecidableEq

/-- One removal attempt (`containers.get(name).remove(force=True)`
inside a `try/except: pass`): always counted, removes the container
exactly when the engine's remove works. -/
def attemptRemove (removeWorks : Bool) (name : String) (st : ContainerState) :
    ContainerState :=
  ⟨if removeWorks then st.containers.filter (fun c => c != name)
    else st.containers,
    st.cleanupAttempts + 1⟩

/-- `_run_container(container_name, image, code, command, timeout)`.
The `timeout` argument is received but **never used**, as in the source.
Returns the result (or exception), the container state after the
function's own `finally` cleanup, and the wall seconds spent blocked on
the run. -/
def runContainer (env : RuntimeEnv) (name : String) (_image : String)
    (_code : String) (_command : List String) (_timeout : Nat)
    (st : ContainerState) :
    Except RtExc RunOutput × ContainerState × Nat :=
  match env.imagePresent, env.pullResult with
  | false, .error msg =>
    -- image missing and the pull raised; `finally` still cleans up
    (.error (.otherError msg), attemptRemove env.removeWorks name st, 0)
  | _, _ =>
    match env.runOutcome with
    | .createFail msg =>
      (.error (.otherError msg), attemptRemove env.removeWorks name st, 0)
    | .ranOk logs ec d =>
      let st1 : ContainerState := ⟨st.containers ++ [name], st.cleanupAttempts⟩
      (.ok ⟨logs, ec⟩, attemptRemove env.removeWorks name st1, d)
    | .ranError msg d =>
      let st1 : ContainerState := ⟨st.containers ++ [name], st.cleanupAttempts⟩
      (.error (.containerError msg), attemptRemove env.removeWorks name st1, d)

/-- The result dict of `execute_skill` together with the final container
state and the wall seconds the call blocked. -/
structure ExecSkillOutcome where
  result : StepResult
  state : ContainerState
  elapsedSeconds : Nat
deriving DecidableEq

/-- The container name `f"skill_{skill.skill_id}_{task_id[:8]}"`. -/
def containerNameOf (skillId taskId : String) : String :=
  "skill_" ++ skillId ++ "_" ++ (taskId.take 8)

/-- `RuntimeEngine.execute_skill(skill, inputs, timeout)`.  Every exit
path runs the `finally: await self._cleanup_container(container_name)`. -/
def executeSkill (env : RuntimeEnv) (skill : SkillRow) (inputs : Json)
    (timeout : Nat) (st : ContainerState) : ExecSkillOutcome :=
  let taskId := env.genTaskId
  let name := containerNameOf skill.skill_id taskId
  -- `_download_code` is a stub: it returns `""` (MinIO integration TODO)
  let code := ""
  match buildCommand skill.language inputs with
  | none =>
    -- `ValueError` from `_build_command` → the generic handler;
    -- `finally` still attempts cleanup
    ⟨{ status := "error", task_id := some taskId,
        error := some ("不支持的语言: " ++ langEnumStr skill.language) },
      attemptRemove env.removeWorks name st, 0⟩
  | some command =>
    let image := languageImage skill.language
    match runContainer env name image code command timeout st with
    | (.ok out, st', d) =>
      ⟨{ status := "success", task_id := some taskId,
          outputs := some [("stdout", .str out.stdout),
            ("exit_code", .num out.exit_code)],
          container_id := some name },
        attemptRemove env.removeWorks name st', d⟩
    | (.error (.containerError msg), st', d) =>
      ⟨{ status := "error", task_id := some taskId, error := some msg },
        attemptRemove env.removeWorks name st', d⟩
    | (.error .timeoutError, st', d) =>
      -- dead in practice: `_run_container` cannot raise asyncio.TimeoutError
      ⟨{ status := "timeout", task_id := some taskId,
          error := some ("执行超时（" ++ toString timeout ++ "秒）") },
        attemptRemove env.removeWorks name
          (attemptRemove env.removeWorks name st'), d⟩
    | (.error (.otherError msg), st', d) =>
      ⟨{ status := "error", task_id := some taskId, error := some msg },
        attemptRemove env.removeWorks name st', d⟩

/-! ## `invoke_skill` and `get_task_status` (`routes/skill_invoke.py`) -/

/-- `SkillInvokeRequest`; pydantic validates `1 ≤ timeout ≤ 300` and
defaults it to 30. -/
structure InvokeRequest where
  skill_id : String
  skill_version : Option String := none
  inputs : Json
  timeout : Nat := 30
  is_async : Bool := false
deriving DecidableEq

/-- A `skill_executions` row (the columns the handlers touch). -/
structure TaskRow where
  task_id : String
  skill_id : String
  status : String
  inputs : Json
  outputs : Option (List (String × Json)) := none
  error_message : Option String := none
  container_id : Option String := none
  started_at : Option Nat := none
  completed_at : Option Nat := none
deriving DecidableEq

/-- The tables touched by `/skill/invoke`. -/
structure InvokeDb where
  skills : List SkillRow
  executions : List TaskRow
deriving DecidableEq

/-- `SkillInvokeResponse`. -/
structure InvokeResponse where
  status : String
  task_id : Option String := none
  outputs : Option (List (String × Json)) := none
  execution_time : Option Nat := none
  message : Option String := none
  errorCode : Option String := none
  errorDetails : Option String := none
deriving DecidableEq

/-- The environment of one invoke request: the generated task id, the
runtime engine as an oracle (producing the result dict for the resolved
inputs and timeout, or raising), the commit oracle, and clock readings. -/
structure InvokeEnv where
  genTaskId : String
  runSkill : Json → Nat → StepResult
  /-- an exception raised by the `execute_skill` call itself (none in
  practice: its body catches everything). -/
  runtimeRaises : Option String := none
  commitFail : Nat → Option String
  startedAt : Nat := 0
  completedAt : Nat := 0
  elapsedSeconds : Nat := 0

/-- What one invoke request produced.  `spawnedBackgroundTasks` records
any background work the handler scheduled — the async branch of the
source schedules none. -/
structure InvokeOutcome where
  response : InvokeResponse
  db : InvokeDb
  calls : List SandboxCall
  spawnedBackgroundTasks : List String
deriving DecidableEq

/-- Overwrite a task row in place. -/
def updateTaskRow (db : InvokeDb) (tid : String) (f : TaskRow → TaskRow) :
    InvokeDb :=
  { db with executions :=
      db.executions.map (fun r => if r.task_id == tid then f r else r) }

/-- The inner `except Exception` handler of the sync path (`SKILL_002`):
record the error on the row and commit (commit index `k`); if that
commit fails too, the exception escapes to the outer handler
(`SKILL_999`), whose own recovery commit (index `k + 1`) is swallowed. -/
def invokeInnerExcept (db2 : InvokeDb) (env : InvokeEnv)
    (calls : List SandboxCall) (msg : String) (k : Nat) : InvokeOutcome :=
  match env.commitFail k with
  | none =>
    let db3 := updateTaskRow db2 env.genTaskId (fun r =>
      { r with
        status := "error"
        error_message := some msg
        completed_at := some env.completedAt })
    ⟨⟨"error", some env.genTaskId, none, none, none, some "SKILL_002",
      some msg⟩, db3, calls, []⟩
  | some msg2 =>
    let dbR :=
      match env.commitFail (k + 1) with
      | none => updateTaskRow db2 env.genTaskId (fun r =>
          { r with
            status := "error"
            error_message := some msg2
            completed_at := some env.completedAt })
      | some _ => db2
    ⟨⟨"error", some env.genTaskId, none, none, none, some "SKILL_999",
      some msg2⟩, dbR, calls, []⟩

/-- `invoke_skill(request, db)`. -/
def invokeSkill (req : InvokeRequest) (db : InvokeDb) (env : InvokeEnv) :
    InvokeOutcome :=
  match db.skills.find? (fun s => s.skill_id == req.skill_id) with
  | none =>
    ⟨⟨"error", none, none, none, some ("Skill 不存在: " ++ req.skill_id),
      some "SKILL_001", some "Skill ID 未找到"⟩, db, [], []⟩
  | some skill =>
    -- input-schema validation is a TODO/no-op in the source
    let row : TaskRow :=
      { task_id := env.genTaskId, skill_id := req.skill_id,
        status := "pending", inputs := req.inputs }
    match env.commitFail 0 with
    | some msg =>
      -- outer handler; the row was never persisted, so its recovery
      -- update/commit (swallowed on failure) leaves the db unchanged
      ⟨⟨"error", some env.genTaskId, none, none, none, some "SKILL_999",
        some msg⟩, db, [], []⟩
    | none =>
      let db1 := { db with executions := db.executions ++ [row] }
      if req.is_async then
        -- async: return pending immediately; NO background task is
        -- created anywhere in the handler
        ⟨⟨"pending", some env.genTaskId, none, none,
          some "任务已提交，正在后台执行", none, none⟩, db1, [], []⟩
      else
        match env.commitFail 1 with
        | some msg =>
          -- the `running` commit failed → outer handler (recovery
          -- commit 2 swallowed)
          let dbR :=
            match env.commitFail 2 with
            | none => updateTaskRow db1 env.genTaskId (fun r =>
                { r with
                  status := "error"
                  error_message := some msg
                  completed_at := some env.completedAt })
            | some _ => db1
          ⟨⟨"error", some env.genTaskId, none, none, none, some "SKILL_999",
            some msg⟩, dbR, [], []⟩
        | none =>
          let db2 := updateTaskRow db1 env.genTaskId (fun r =>
            { r with
              status := "running"
              started_at := some env.startedAt })
          -- `timeout=request.timeout or skill.timeout` (Python truthiness)
          let effTimeout := if req.timeout ≠ 0 then req.timeout else skill.timeout
          let calls : List SandboxCall := [⟨req.skill_id, req.inputs, effTimeout⟩]
          match env.runtimeRaises with
          | some msg => invokeInnerExcept db2 env calls msg 2
          | none =>
            let result := env.runSkill req.inputs effTimeout
            match env.commitFail 2 with
            | some msg => invokeInnerExcept db2 env calls msg 3
            | none =>
              let db3 := updateTaskRow db2 env.genTaskId (fun r =>
                let r' :=
                  if result.status == "success" then
                    { r with status := "success", outputs := result.outputs }
                  else if result.status == "timeout" then
                    { r with status := "timeout", error_message := result.error }
                  else
                    { r with status := "error", error_message := result.error }
                { r' with
                  completed_at := some env.completedAt
                  container_id := result.container_id })
              ⟨⟨(if result.status == "success" then "success" else result.status),
                some env.genTaskId, result.outputs, some env.elapsedSeconds,
                (if result.status == "success" then some "执行成功" else result.error),
                none, none⟩, db3, calls, []⟩

/-- `get_task_status(task_id, db)`: return the row verbatim (`none`
models the 404). -/
def getTaskStatus (taskId : String) (db : InvokeDb) : Option InvokeResponse :=
  match db.executions.find? (fun r => r.task_id == taskId) with
  | none => none
  | some row =>
    let execTime :=
      match row.started_at, row.completed_at with
      | some s, some c => some (c - s)
      | _, _ => none
    some ⟨row.status, some taskId, row.outputs, execTime, row.error_message,
      none, none⟩

/-! ## `register_skill` (`routes/skill_register.py`) -/

/-- `SkillRegistrationRequest`; pydantic validates
`1 ≤ timeout ≤ 300`. -/
structure RegisterRequest where
  skill_id : String
  skill_name : String
  description : Option String := none
  version : String
  language : Lang
  code : String
  dependencies : Option (List String) := none
  timeout : Nat := 30
  author : Option String := none
  license : Option String := none
deriving DecidableEq

/-- The tables touched by `/skill/register`. -/
structure RegDb where
  skills : List SkillRow
  skillVersions : List (String × String)
deriving DecidableEq

/-- The environment of one registration: the external
`base64.b64decode` + `bytes.decode('utf-8')` pipeline as an oracle
(`none` models either of the two raising), the MinIO upload, the single
`db.commit()` for the two inserted rows, and the row timestamp. -/
structure RegisterEnv where
  decodeB64Utf8 : String → Option String
  upload : Except String String
  commitFail : Option String := none
  now : String := ""

/-- `SkillRegistrationResponse`. -/
structure RegisterResponse where
  status : String
  skill_id : Option String := none
  version : Option String := none
  registration_time : Option String := none
  message : Option String := none
  errorCode : Option String := none
  errorDetails : Option String := none
deriving DecidableEq

/-- What one registration produced; `deletedArtifacts` records the
best-effort `storage_client.delete_code` cleanup calls. -/
structure RegisterOutcome where
  response : RegisterResponse
  db : RegDb
  deletedArtifacts : List (String × String)
deriving DecidableEq

/-- `register_skill(request, db)`. -/
def registerSkill (req : RegisterRequest) (db : RegDb) (env : RegisterEnv) :
    RegisterOutcome :=
  if (db.skills.find? (fun s => s.skill_id == req.skill_id)).isSome then
    ⟨⟨"error", none, none, none, some ("Skill 已存在: " ++ req.skill_id),
      some "SKILL_REG_001", some "Skill ID 已被使用"⟩, db, []⟩
  else
    match env.decodeB64Utf8 req.code with
    | none =>
      ⟨⟨"error", none, none, none, some "代码格式无效", some "SKILL_REG_003",
        some "Base64 解码失败"⟩, db, []⟩
    | some _code =>
      match env.upload with
      | .error msg =>
        ⟨⟨"error", none, none, none, some "代码上传失败", some "SKILL_REG_999",
          some msg⟩, db, []⟩
      | .ok codeUrl =>
        match env.commitFail with
        | some msg =>
          -- outer handler: rollback, best-effort artifact cleanup, 999
          ⟨⟨"error", none, none, none, some "注册失败", some "SKILL_REG_999",
            some msg⟩, db, [(req.skill_id, req.version)]⟩
        | none =>
          let skill : SkillRow :=
            { skill_id := req.skill_id, skill_name := req.skill_name,
              version := req.version, language := req.language,
              code_url := some codeUrl, timeout := req.timeout,
              created_at := env.now }
          let db' : RegDb :=
            ⟨db.skills ++ [skill],
              db.skillVersions ++ [(req.skill_id, req.version)]⟩
          ⟨⟨"success", some req.skill_id, some req.version, some env.now,
            some "Skill 注册成功", none, none⟩, db', []⟩

/-! ## Helper lemmas about the embedded operations -/

theorem lookup_map_overwrite_self {α : Type} (m : List (String × α))
    (k : String) (v : α) (hany : m.any (fun p => p.1 == k)) :
    lookupAssoc (m.map (fun p => if p.1 == k then (k, v) else p)) k
      = some v := by
  induction m with
  | nil => simp at hany
  | cons a t ih =>
    simp only [List.map_cons]
    by_cases hak : a.1 = k
    · rw [if_pos (by simpa using hak)]
      simp [lookupAssoc, List.find?_cons_of_pos]
    · rw [if_neg (by simpa using hak)]
      simp only [List.any_cons, Bool.or_eq_true] at hany
      rcases hany with hhead | htail
      · exact absurd (by simpa using hhead) hak
      · unfold lookupAssoc
        rw [List.find?_cons_of_neg _ (by simpa using hak)]
        exact ih htail

theorem lookup_map_overwrite_other {α : Type} (m : List (String × α))
    (k k' : String) (v : α) (h : k ≠ k') :
    lookupAssoc (m.map (fun p => if p.1 == k' then (k', v) else p)) k
      = lookupAssoc m k := by
  induction m with
  | nil => rfl
  | cons a t ih =>
    simp only [List.map_cons]
    by_cases hak' : a.1 = k'
    · rw [if_pos (by simpa using hak')]
      unfold lookupAssoc
      rw [List.find?_cons_of_neg _ (by simp; exact fun hcon => h hcon.symm),
        List.find?_cons_of_neg _ (by simp [hak']; exact fun hcon => h hcon.symm)]
      exact ih
    · rw [if_neg (by simpa using hak')]
      by_cases hak : a.1 = k
      · unfold lookupAssoc
        rw [List.find?_cons_of_pos _ (by simpa using hak),
          List.find?_cons_of_pos _ (by simpa using hak)]
      · unfold lookupAssoc
        rw [List.find?_cons_of_neg _ (by simpa using hak),
          List.find?_cons_of_neg _ (by simpa using hak)]
        exact ih

theorem lookup_append_single_self {α : Type} (m : List (String × α))
    (k : String) (v : α) (hnone : ¬ m.any (fun p => p.1 == k)) :
    lookupAssoc (m ++ [(k, v)]) k = some v := by
  unfold lookupAssoc
  rw [List.find?_append]
  have hfind : m.find? (fun p => p.1 == k) = none := by
    rw [List.find?_eq_none]
    intro a ha hpa
    exact hnone (List.any_eq_true.mpr ⟨a, ha, hpa⟩)
  rw [hfind]
  simp [List.find?_cons_of_pos]

theorem lookup_setAssoc_self {α : Type} (m : List (String × α)) (k : String)
    (v : α) : lookupAssoc (setAssoc m k v) k = some v := by
  unfold setAssoc
  by_cases hany : m.any (fun p => p.1 == k)
  · rw [if_pos hany]
    exact lookup_map_overwrite_self m k v hany
  · rw [if_neg hany]
    exact lookup_append_single_self m k v hany

theorem lookup_setAssoc_other {α : Type} (m : List (String × α))
    (k k' : String) (v : α) (h : k ≠ k') :
    lookupAssoc (setAssoc m k' v) k = lookupAssoc m k := by
  unfold setAssoc
  by_cases hany : m.any (fun p => p.1 == k')
  · rw [if_pos hany]
    exact lookup_map_overwrite_other m k k' v h
  · rw [if_neg hany]
    unfold lookupAssoc
    rw [List.find?_append]
    cases hfind : m.find? (fun p => p.1 == k) with
    | none =>
      have h1 : ((k', v).1 == k) = false := by
        simp only [beq_eq_false_iff_ne, ne_eq]
        exact fun hcon => h hcon.symm
      simp [List.find?, h1]
    | some a => simp [hfind]

theorem lookup_setAssoc_isSome {α : Type} (m : List (String × α))
    (k k' : String) (v : α) (h : (lookupAssoc m k).isSome) :
    (lookupAssoc (setAssoc m k' v) k).isSome := by
  by_cases hkk : k = k'
  · subst hkk
    rw [lookup_setAssoc_self]
    rfl
  · rw [lookup_setAssoc_other m k k' v hkk]
    exact h

theorem not_mem_filter_ne (l : List String) (x : String) :
    x ∉ l.filter (fun c => c != x) := by
  intro h
  have h2 := List.of_mem_filter h
  simp at h2

/-- The embedded `execute_skill` can never produce a `timeout` result:
the `asyncio.TimeoutError` handler is dead code because the worker
thread is joined without any deadline. -/
theorem executeSkill_never_timeout (env : RuntimeEnv) (skill : SkillRow)
    (inputs : Json) (t : Nat) (st : ContainerState) :
    (executeSkill env skill inputs t st).result.status ≠ "timeout" := by
  obtain ⟨tid, imgP, pullR, runO, remW⟩ := env
  cases hbc : buildCommand skill.language inputs with
  | none => simp [executeSkill, hbc]
  | some cmd =>
    cases imgP <;> rcases pullR with msg | u <;> cases runO <;>
      simp [executeSkill, runContainer, hbc]

/-- The wall time of the embedded `execute_skill` is whatever the
container takes, regardless of the requested timeout. -/
theorem executeSkill_elapsed (env : RuntimeEnv) (skill : SkillRow)
    (inputs : Json) (t : Nat) (st : ContainerState)
    (logs : String) (ec : Int) (d : Nat)
    (hrun : env.runOutcome = .ranOk logs ec d)
    (himg : env.imagePresent = true)
    (hcmd : (buildCommand skill.language inputs).isSome) :
    (executeSkill env skill inputs t st).elapsedSeconds = d := by
  obtain ⟨tid, imgP, pullR, runO, remW⟩ := env
  simp only at hrun himg
  subst hrun
  subst himg
  obtain ⟨cmd, hbc⟩ := Option.isSome_iff_exists.mp hcmd
  rcases pullR with msg | u <;>
    simp [executeSkill, runContainer, hbc]

/-! ## Claim fixtures: the sandbox runtime -/

/-- A skill whose container sleeps for 10 seconds, invoked with
`timeout=2` (scenario S2). -/
def c2Env : RuntimeEnv :=
  { genTaskId := "3f0e8a1c-0000-0000-0000-000000000000"
    imagePresent := true
    pullResult := .ok ()
    runOutcome := .ranOk "" 0 10
    removeWorks := true }

/-- The sleeping skill of scenario S2. -/
def c2Skill : SkillRow := { skill_id := "sleepy", language := .python }

/-- The `add` skill of scenario S1: the container prints
`{"sum": 5}` and exits 0. -/
def c3Env : RuntimeEnv :=
  { genTaskId := "3f0e8a1c-0000-0000-0000-000000000001"
    imagePresent := true
    pullResult := .ok ()
    runOutcome := .ranOk "\x7b\"sum\": 5\x7d\n" 0 1
    removeWorks := true }

/-- The `add` skill row. -/
def c3Skill : SkillRow := { skill_id := "add", language := .python }

/-- Inputs `{a: 2, b: 3}`. -/
def c3Inputs : Json := .obj (.cons "a" (.num 2) (.cons "b" (.num 3) .nil))

theorem executeSkill_attempts (env : RuntimeEnv) (skill : SkillRow)
    (inputs : Json) (t : Nat) (st : ContainerState) :
    st.cleanupAttempts < (executeSkill env skill inputs t st).state.cleanupAttempts := by
  obtain ⟨tid, imgP, pullR, runO, remW⟩ := env
  cases hbc : buildCommand skill.language inputs <;>
    cases imgP <;> rcases pullR with msg | u <;> cases runO <;>
      simp [executeSkill, runContainer, attemptRemove, hbc] <;> omega

theorem executeSkill_no_leak (env : RuntimeEnv) (skill : SkillRow)
    (inputs : Json) (t : Nat) (st : ContainerState)
    (hrem : env.removeWorks = true) :
    containerNameOf skill.skill_id env.genTaskId ∉
      (executeSkill env skill inputs t st).state.containers := by
  obtain ⟨tid, imgP, pullR, runO, remW⟩ := env
  simp only at hrem
  subst hrem
  cases hbc : buildCommand skill.language inputs <;>
    cases imgP <;> rcases pullR with msg | u <;> cases runO <;>
      simp only [executeSkill, runContainer, attemptRemove, hbc, if_pos] <;>
      exact not_mem_filter_ne _ _

/-- **C2.**  The runtime enforces no wall-clock deadline at all: the
`execute_skill` embedding never produces a `timeout` status under any
engine behaviour, and a container that sleeps 10 s under `timeout=2`
(scenario S2) blocks the call for the full 10 s and then reports
`success`. -/
theorem c2_timeout_never_enforced :
    ((executeSkill c2Env c2Skill (Json.obj .nil) 2 ⟨[], 0⟩).result.status
        = "success" ∧
      (executeSkill c2Env c2Skill (Json.obj .nil) 2 ⟨[], 0⟩).elapsedSeconds
        = 10 ∧
      ¬((executeSkill c2Env c2Skill (Json.obj .nil) 2 ⟨[], 0⟩).elapsedSeconds
        ≤ 2 + 2)) ∧
    ∀ (env : RuntimeEnv) (skill : SkillRow) (inputs : Json) (t : Nat)
      (st : ContainerState),
      (executeSkill env skill inputs t st).result.status ≠ "timeout" :=
  ⟨⟨by decide, by decide, by decide⟩, executeSkill_never_timeout⟩

/-- **C3.**  The runner never parses the container's stdout: for the
`add` skill whose container prints `{"sum": 5}` and exits 0, the result
is `success` with outputs `{"stdout": ..., "exit_code": 0}` — not the
parsed map `{"sum": 5}` the spec describes. -/
theorem c3_stdout_never_parsed :
    (executeSkill c3Env c3Skill c3Inputs 5 ⟨[], 0⟩).result.status
      = "success" ∧
    (executeSkill c3Env c3Skill c3Inputs 5 ⟨[], 0⟩).result.outputs
      = some [("stdout", .str "\x7b\"sum\": 5\x7d\n"), ("exit_code", .num 0)] ∧
    (executeSkill c3Env c3Skill c3Inputs 5 ⟨[], 0⟩).result.outputs
      ≠ some [("sum", .num 5)] :=
  ⟨by decide, by decide, by decide⟩

/-- **C9.**  On every exit path of `execute_skill` — success, container
error, engine error, unsupported language — at least one removal attempt
is made for the generated container name, and whenever the engine's
forced removal works no container with that name remains. -/
theorem c9_cleanup_on_every_path (env : RuntimeEnv) (skill : SkillRow)
    (inputs : Json) (t : Nat) (st : ContainerState) :
    st.cleanupAttempts < (executeSkill env skill inputs t st).state.cleanupAttempts ∧
    (env.removeWorks = true →
      containerNameOf skill.skill_id env.genTaskId ∉
        (executeSkill env skill inputs t st).state.containers) :=
  ⟨executeSkill_attempts env skill inputs t st,
    fun hrem => executeSkill_no_leak env skill inputs t st hrem⟩

/-- Closed witness for C9 at a concrete environment. -/
theorem c9_cleanup_on_every_path_witness :
    (0 : Nat) < (executeSkill c2Env c2Skill (Json.obj .nil) 2 ⟨[], 0⟩).state.cleanupAttempts ∧
    (c2Env.removeWorks = true →
      containerNameOf c2Skill.skill_id c2Env.genTaskId ∉
        (executeSkill c2Env c2Skill (Json.obj .nil) 2 ⟨[], 0⟩).state.containers) :=
  c9_cleanup_on_every_path c2Env c2Skill (Json.obj .nil) 2 ⟨[], 0⟩

/-! ## Claim theorems: the invoke endpoint -/

/-- **C4.**  The async branch of `invoke_skill` returns `pending` with a
task id, but schedules **no** background work and makes no sandbox call:
the persisted row stays `pending`, and polling it returns `pending`
(no terminal state is ever reached because nothing else mutates it). -/
theorem c4_async_schedules_nothing (req : InvokeRequest) (db : InvokeDb)
    (env : InvokeEnv)
    (hasync : req.is_async = true)
    (hskill : (db.skills.find? (fun s => s.skill_id == req.skill_id)).isSome)
    (hcommit : env.commitFail 0 = none)
    (hfresh : ∀ r ∈ db.executions, r.task_id ≠ env.genTaskId) :
    (invokeSkill req db env).response.status = "pending" ∧
    (invokeSkill req db env).response.task_id = some env.genTaskId ∧
    (invokeSkill req db env).calls = [] ∧
    (invokeSkill req db env).spawnedBackgroundTasks = [] ∧
    ∃ resp, getTaskStatus env.genTaskId (invokeSkill req db env).db = some resp ∧
      resp.status = "pending" := by
  obtain ⟨skill, hfind⟩ := Option.isSome_iff_exists.mp hskill
  simp only [invokeSkill, hfind, hcommit, hasync, if_true]
  refine ⟨trivial, trivial, trivial, trivial, ?_⟩
  unfold getTaskStatus
  have hnone : db.executions.find? (fun r => r.task_id == env.genTaskId) = none := by
    rw [List.find?_eq_none]
    intro r hr hpr
    exact hfresh r hr (by simpa using hpr)
  simp only [List.find?_append, hnone, Option.none_or]
  rw [List.find?_cons_of_pos _ (by simp)]
  exact ⟨_, rfl, rfl⟩

/-- Closed witness for C4. -/
theorem c4_async_schedules_nothing_witness :
    (invokeSkill ⟨"sk", none, Json.obj .nil, 30, true⟩ ⟨[{ skill_id := "sk" }], []⟩
        { genTaskId := "task-1", runSkill := fun _ _ => { status := "success" },
          commitFail := fun _ => none }).response.status = "pending" ∧
    (invokeSkill ⟨"sk", none, Json.obj .nil, 30, true⟩ ⟨[{ skill_id := "sk" }], []⟩
        { genTaskId := "task-1", runSkill := fun _ _ => { status := "success" },
          commitFail := fun _ => none }).response.task_id = some "task-1" ∧
    (invokeSkill ⟨"sk", none, Json.obj .nil, 30, true⟩ ⟨[{ skill_id := "sk" }], []⟩
        { genTaskId := "task-1", runSkill := fun _ _ => { status := "success" },
          commitFail := fun _ => none }).calls = [] ∧
    (invokeSkill ⟨"sk", none, Json.obj .nil, 30, true⟩ ⟨[{ skill_id := "sk" }], []⟩
        { genTaskId := "task-1", runSkill := fun _ _ => { status := "success" },
          commitFail := fun _ => none }).spawnedBackgroundTasks = [] ∧
    ∃ resp, getTaskStatus "task-1"
        (invokeSkill ⟨"sk", none, Json.obj .nil, 30, true⟩ ⟨[{ skill_id := "sk" }], []⟩
          { genTaskId := "task-1", runSkill := fun _ _ => { status := "success" },
            commitFail := fun _ => none }).db = some resp ∧
      resp.status = "pending" := by
  have h := c4_async_schedules_nothing
    ⟨"sk", none, Json.obj .nil, 30, true⟩ ⟨[{ skill_id := "sk" }], []⟩
    { genTaskId := "task-1", runSkill := fun _ _ => { status := "success" },
      commitFail := fun _ => none }
    rfl (by decide) rfl (by intro r hr; cases hr)
  exact h

/-! ## Claim theorems: the sandbox timeout argument (C7) -/

/-- C7 counterexample fixtures: request timeout 100, skill default 30. -/
def c7Req : InvokeRequest :=
  { skill_id := "sk", inputs := Json.obj .nil, timeout := 100, is_async := false }

/-- The registered skill with default timeout 30. -/
def c7Db : InvokeDb := ⟨[{ skill_id := "sk", timeout := 30 }], []⟩

/-- An all-green environment. -/
def c7Env : InvokeEnv :=
  { genTaskId := "task-7", runSkill := fun _ _ => { status := "success", outputs := some [] },
    commitFail := fun _ => none }

/-- **C7 counterexample.**  With request timeout 100 and skill default
timeout 30, the sandbox is invoked with 100 — not
`min(timeout, skill.default_timeout) = 30` as claimed. -/
theorem c7_not_min_counterexample :
    (invokeSkill c7Req c7Db c7Env).calls = [⟨"sk", Json.obj .nil, 100⟩] ∧
    (100 : Nat) ≠ min 100 30 :=
  ⟨by decide, by decide⟩

/-- **C7 (amended).**  The sync path passes
`request.timeout or skill.timeout` to the sandbox runner — Python
truthiness, so with a validated request (`timeout ≥ 1`) it is always the
request timeout itself, never clamped by the skill's default. -/
theorem c7_timeout_passthrough (req : InvokeRequest) (db : InvokeDb)
    (env : InvokeEnv) (skill : SkillRow)
    (hfind : db.skills.find? (fun s => s.skill_id == req.skill_id) = some skill)
    (hsync : req.is_async = false)
    (h0 : env.commitFail 0 = none) (h1 : env.commitFail 1 = none)
    (hval : 1 ≤ req.timeout) :
    (invokeSkill req db env).calls = [⟨req.skill_id, req.inputs, req.timeout⟩] := by
  have htz : req.timeout ≠ 0 := by omega
  simp only [invokeSkill, hfind, h0, h1, hsync, Bool.false_eq_true, if_false,
    ne_eq, htz, not_false_eq_true, if_true]
  cases env.runtimeRaises with
  | some msg =>
    unfold invokeInnerExcept
    cases env.commitFail 2 <;> [skip; cases env.commitFail 3] <;> rfl
  | none =>
    cases env.commitFail 2 with
    | none => rfl
    | some msg =>
      unfold invokeInnerExcept
      cases env.commitFail 3 <;> [skip; cases env.commitFail 4] <;> rfl

/-- Closed witness for C7 (amended). -/
theorem c7_timeout_passthrough_witness :
    (invokeSkill c7Req c7Db c7Env).calls = [⟨"sk", Json.obj .nil, 100⟩] :=
  c7_timeout_passthrough c7Req c7Db c7Env { skill_id := "sk", timeout := 30 }
    (by decide) rfl rfl rfl (by decide)

/-! ## Claim theorems: registration (C1) -/

/-- A fresh registration request. -/
def c1Req : RegisterRequest :=
  { skill_id := "greeter", skill_name := "Greeter", version := "1.0.0",
    language := .python, code := "cHJpbnQoJ2hpJyk=" }

/-- Decode succeeds, the storage upload succeeds, but the database
commit of the two rows fails. -/
def c1Env : RegisterEnv :=
  { decodeB64Utf8 := fun _ => some "print('hi')",
    upload := .ok "greeter/1.0.0/skill.py",
    commitFail := some "connection to the database was lost" }

/-- **C1 counterexample.**  skill not yet registered, code valid, upload
succeeded — yet the response is not `success` and `SKILL_REG_999` is
returned for a pure database failure, with no storage failure at all. -/
theorem c1_reg999_without_storage_failure :
    (registerSkill c1Req ⟨[], []⟩ c1Env).response.status = "error" ∧
    (registerSkill c1Req ⟨[], []⟩ c1Env).response.errorCode
      = some "SKILL_REG_999" ∧
    c1Env.upload = .ok "greeter/1.0.0/skill.py" :=
  ⟨by decide, by decide, rfl⟩

/-- The all-green registration environment. -/
def c1EnvOk : RegisterEnv :=
  { decodeB64Utf8 := fun _ => some "print('hi')",
    upload := .ok "greeter/1.0.0/skill.py",
    commitFail := none }

/-- **C1 (amended).**  For a not-yet-registered id whose code decodes,
registration succeeds (echoing id and version) iff both the storage
upload and the database commit succeed; `SKILL_REG_999` is returned iff
the upload raises or any later exception (e.g. a database failure)
occurs. -/
theorem c1_registration_outcomes (req : RegisterRequest) (db : RegDb)
    (env : RegisterEnv)
    (hnew : db.skills.find? (fun s => s.skill_id == req.skill_id) = none)
    (hdec : (env.decodeB64Utf8 req.code).isSome) :
    (((registerSkill req db env).response.status = "success" ∧
      (registerSkill req db env).response.skill_id = some req.skill_id ∧
      (registerSkill req db env).response.version = some req.version)
      ↔ ((∃ url, env.upload = Except.ok url) ∧ env.commitFail = none)) ∧
    ((registerSkill req db env).response.errorCode = some "SKILL_REG_999"
      ↔ ((∃ msg, env.upload = Except.error msg) ∨ env.commitFail ≠ none)) := by
  obtain ⟨code, hdecode⟩ := Option.isSome_iff_exists.mp hdec
  have hfalse : (db.skills.find? (fun s => s.skill_id == req.skill_id)).isSome = false := by
    rw [hnew]; rfl
  cases hup : env.upload with
  | error msg =>
    have hout : registerSkill req db env =
        ⟨⟨"error", none, none, none, some "代码上传失败", some "SKILL_REG_999",
          some msg⟩, db, []⟩ := by
      simp only [registerSkill, hfalse, Bool.false_eq_true, if_false, hdecode, hup]
    rw [hout]
    refine ⟨iff_of_false (by rintro ⟨h, -⟩; simp at h) ?_,
      iff_of_true rfl (Or.inl ⟨msg, rfl⟩)⟩
    rintro ⟨⟨url, hurl⟩, -⟩
    cases hurl
  | ok url =>
    cases hcf : env.commitFail with
    | some msg =>
      have hout : registerSkill req db env =
          ⟨⟨"error", none, none, none, some "注册失败", some "SKILL_REG_999",
            some msg⟩, db, [(req.skill_id, req.version)]⟩ := by
        simp only [registerSkill, hfalse, Bool.false_eq_true, if_false, hdecode,
          hup, hcf]
      rw [hout]
      refine ⟨iff_of_false (by rintro ⟨h, -⟩; simp at h) ?_,
        iff_of_true rfl (Or.inr (fun h => by cases h))⟩
      rintro ⟨-, hnone⟩
      cases hnone
    | none =>
      have hout : (registerSkill req db env).response =
          ⟨"success", some req.skill_id, some req.version, some env.now,
            some "Skill 注册成功", none, none⟩ := by
        simp only [registerSkill, hfalse, Bool.false_eq_true, if_false, hdecode,
          hup, hcf]
      rw [hout]
      refine ⟨iff_of_true ⟨rfl, rfl, rfl⟩ ⟨⟨url, rfl⟩, rfl⟩,
        iff_of_false (fun h => by cases h) ?_⟩
      rintro (⟨m, hm⟩ | hne)
      · cases hm
      · exact hne rfl

/-- Closed witness for C1 (amended), at an all-green environment. -/
theorem c1_registration_outcomes_witness :
    (((registerSkill c1Req ⟨[], []⟩ c1EnvOk).response.status = "success" ∧
      (registerSkill c1Req ⟨[], []⟩ c1EnvOk).response.skill_id = some c1Req.skill_id ∧
      (registerSkill c1Req ⟨[], []⟩ c1EnvOk).response.version = some c1Req.version)
      ↔ ((∃ url, c1EnvOk.upload = Except.ok url) ∧ c1EnvOk.commitFail = none)) ∧
    ((registerSkill c1Req ⟨[], []⟩ c1EnvOk).response.errorCode
        = some "SKILL_REG_999"
      ↔ ((∃ msg, c1EnvOk.upload = Except.error msg) ∨ c1EnvOk.commitFail ≠ none)) :=
  c1_registration_outcomes c1Req ⟨[], []⟩ c1EnvOk (by decide) rfl

/-! ## Lemmas: the scan and replacement over decomposed strings -/

theorem toList_append (a b : String) : (a ++ b).toList = a.toList ++ b.toList := by
  cases a; cases b; rfl

theorem toList_inj {a b : String} (h : a.toList = b.toList) : a = b := by
  cases a
  cases b
  exact congrArg String.mk (by simpa using h)

theorem word_ne_lbrace {c : Char} (h : isWordChar c = true) : c ≠ lbrace := by
  intro he
  rw [he] at h
  exact absurd h (by decide)

theorem placeholderText_toList (s f : String) :
    (placeholderText s f).toList = phChars s f := by
  simp only [placeholderText, toList_append]
  rw [show ("\x7b\x7b" : String).toList = [lbrace, lbrace] from by decide,
    show ("." : String).toList = ['.'] from by decide,
    show ("\x7d\x7d" : String).toList = [rbrace, rbrace] from by decide]
  simp [phChars, List.append_assoc]

theorem dropWhile_length_le (p : Char → Bool) :
    ∀ l : List Char, (l.dropWhile p).length ≤ l.length := by
  intro l
  induction l with
  | nil => simp [List.dropWhile]
  | cons a t ih =>
    cases hpa : p a
    · simp [List.dropWhile, hpa]
    · simp only [List.dropWhile, hpa]
      exact Nat.le_succ_of_le ih

theorem takeWhile_append_sep (p : Char → Bool) :
    ∀ (xs : List Char) (y : Char) (ys : List Char),
      (∀ x ∈ xs, p x = true) → p y = false →
      (xs ++ y :: ys).takeWhile p = xs ∧ (xs ++ y :: ys).dropWhile p = y :: ys := by
  intro xs
  induction xs with
  | nil =>
    intro y ys _ hy
    simp [List.takeWhile, List.dropWhile, hy]
  | cons a t ih =>
    intro y ys hall hy
    have hpa : p a = true := hall a (by simp)
    have hrec := ih y ys (fun x hx => hall x (by simp [hx])) hy
    rw [List.cons_append, List.takeWhile_cons_of_pos hpa,
      List.dropWhile_cons_of_pos hpa, hrec.1, hrec.2]
    exact ⟨rfl, rfl⟩



/-- `matchPlaceholder` on a two-or-more element list, with the
`let`-bindings expanded (definitional). -/
theorem matchPlaceholder_cons2 (c1 c2 : Char) (rest : List Char) :
    matchPlaceholder (c1 :: c2 :: rest) =
      if c1 = lbrace ∧ c2 = lbrace then
        if rest.takeWhile isWordChar = [] then none
        else
          match rest.dropWhile isWordChar with
          | c3 :: r2 =>
            if c3 = '.' then
              if r2.takeWhile isWordChar = [] then none
              else
                match r2.dropWhile isWordChar with
                | c4 :: c5 :: r4 =>
                  if c4 = rbrace ∧ c5 = rbrace then
                    some ((rest.takeWhile isWordChar).asString,
                      (r2.takeWhile isWordChar).asString, r4)
                  else none
                | _ => none
            else none
          | [] => none
      else none := rfl

theorem matchPlaceholder_rest_length (l : List Char) (s f : String) (r : List Char)
    (h : matchPlaceholder l = some (s, f, r)) : r.length < l.length := by
  cases l with
  | nil => exact absurd h (by simp [matchPlaceholder])
  | cons c1 t =>
  cases t with
  | nil => exact absurd h (by simp [matchPlaceholder])
  | cons c2 rest =>
  rw [matchPlaceholder_cons2] at h
  split at h
  · split at h
    · exact absurd h (by simp)
    · split at h
      · next c3 r2 heq1 =>
        split at h
        · split at h
          · exact absurd h (by simp)
          · split at h
            · next c4 c5 r4 heq2 =>
              split at h
              · injection h with h'
                have hr : r4 = r := congrArg (fun x => x.2.2) h'
                subst hr
                have l1 : (rest.dropWhile isWordChar).length ≤ rest.length :=
                  dropWhile_length_le _ _
                have l2 : (r2.dropWhile isWordChar).length ≤ r2.length :=
                  dropWhile_length_le _ _
                rw [heq1] at l1
                rw [heq2] at l2
                simp only [List.length_cons] at l1 l2 ⊢
                omega
              · exact absurd h (by simp)
            · exact absurd h (by simp)
        · exact absurd h (by simp)
      · exact absurd h (by simp)
  · exact absurd h (by simp)

theorem findAux_ext : ∀ (n : Nat) (l : List Char) (f1 f2 : Nat),
    l.length ≤ n → l.length ≤ f1 → l.length ≤ f2 →
    findPlaceholdersAux f1 l = findPlaceholdersAux f2 l := by
  intro n
  induction n with
  | zero =>
    intro l f1 f2 hn _ _
    have hnil : l = [] := List.eq_nil_of_length_eq_zero (Nat.le_zero.mp hn)
    subst hnil
    cases f1 <;> cases f2 <;> rfl
  | succ n ih =>
    intro l f1 f2 hn h1 h2
    cases l with
    | nil => cases f1 <;> cases f2 <;> rfl
    | cons c rest =>
      cases f1 with
      | zero => exact absurd h1 (by simp)
      | succ g1 =>
        cases f2 with
        | zero => exact absurd h2 (by simp)
        | succ g2 =>
          simp only [findPlaceholdersAux]
          cases hm : matchPlaceholder (c :: rest) with
          | none =>
            simp only [List.length_cons] at hn h1 h2
            exact ih rest g1 g2 (by omega) (by omega) (by omega)
          | some trip =>
            obtain ⟨s, f, r⟩ := trip
            have hr := matchPlaceholder_rest_length _ _ _ _ hm
            simp only [List.length_cons] at hn h1 h2 hr
            dsimp only
            rw [ih r g1 g2 (by omega) (by omega) (by omega)]

theorem replaceAux_ext : ∀ (n : Nat) (l pat rep : List Char), pat ≠ [] →
    l.length ≤ n → ∀ f1 f2, l.length ≤ f1 → l.length ≤ f2 →
    replaceAux f1 l pat rep = replaceAux f2 l pat rep := by
  intro n
  induction n with
  | zero =>
    intro l pat rep _ hn f1 f2 _ _
    have hnil : l = [] := List.eq_nil_of_length_eq_zero (Nat.le_zero.mp hn)
    subst hnil
    cases f1 <;> cases f2 <;> rfl
  | succ n ih =>
    intro l pat rep hpat hn f1 f2 h1 h2
    cases l with
    | nil => cases f1 <;> cases f2 <;> rfl
    | cons c rest =>
      cases f1 with
      | zero => exact absurd h1 (by simp)
      | succ g1 =>
        cases f2 with
        | zero => exact absurd h2 (by simp)
        | succ g2 =>
          simp only [replaceAux]
          have hplen : 1 ≤ pat.length := by
            cases pat with
            | nil => exact absurd rfl hpat
            | cons a b => simp
          cases hsw : startsWithChars pat (c :: rest) with
          | true =>
            simp only [if_true]
            have hdl : ((c :: rest).drop pat.length).length
                = rest.length + 1 - pat.length := by
              rw [List.length_drop]
              simp
            simp only [List.length_cons] at hn h1 h2
            rw [ih ((c :: rest).drop pat.length) pat rep hpat (by omega) g1 g2
              (by omega) (by omega)]
          | false =>
            simp only [Bool.false_eq_true, if_false]
            simp only [List.length_cons] at hn h1 h2
            rw [ih rest pat rep hpat (by omega) g1 g2 (by omega) (by omega)]

theorem findPlaceholders_eq (s : String) : findPlaceholders s = findList s.toList := rfl

theorem pyReplace_eq (s pat rep : String) :
    pyReplace s pat rep = (replaceList s.toList pat.toList rep.toList).asString := rfl

theorem findList_cons_none (c : Char) (rest : List Char)
    (h : matchPlaceholder (c :: rest) = none) :
    findList (c :: rest) = findList rest := by
  unfold findList
  rw [show (c :: rest).length = rest.length + 1 from rfl]
  simp only [findPlaceholdersAux]
  rw [h]

theorem findList_cons_some (c : Char) (rest : List Char) (s f : String) (r : List Char)
    (h : matchPlaceholder (c :: rest) = some (s, f, r)) :
    findList (c :: rest) = (s, f) :: findList r := by
  have hlen := matchPlaceholder_rest_length _ _ _ _ h
  unfold findList
  rw [show (c :: rest).length = rest.length + 1 from rfl]
  simp only [findPlaceholdersAux]
  rw [h]
  dsimp only
  simp only [List.length_cons] at hlen
  rw [findAux_ext rest.length r rest.length r.length (by omega) (by omega) (by omega)]

theorem replaceList_cons_neg (c : Char) (rest pat rep : List Char)
    (h : startsWithChars pat (c :: rest) = false) :
    replaceList (c :: rest) pat rep = c :: replaceList rest pat rep := by
  unfold replaceList
  rw [show (c :: rest).length = rest.length + 1 from rfl]
  simp only [replaceAux]
  rw [h]
  simp only [Bool.false_eq_true, if_false]

theorem replaceList_cons_pos (c : Char) (rest pat rep : List Char) (hpat : pat ≠ [])
    (h : startsWithChars pat (c :: rest) = true) :
    replaceList (c :: rest) pat rep
      = rep ++ replaceList ((c :: rest).drop pat.length) pat rep := by
  unfold replaceList
  rw [show (c :: rest).length = rest.length + 1 from rfl]
  simp only [replaceAux]
  rw [h]
  simp only [if_true]
  congr 1
  have hplen : 1 ≤ pat.length := by
    cases pat with
    | nil => exact absurd rfl hpat
    | cons a b => simp
  have hdl : ((c :: rest).drop pat.length).length = rest.length + 1 - pat.length := by
    rw [List.length_drop]
    simp
  exact replaceAux_ext rest.length _ pat rep hpat (by omega) _ _ (by omega) (by omega)


theorem matchPlaceholder_cons_ne (c : Char) (l : List Char) (hc : c ≠ lbrace) :
    matchPlaceholder (c :: l) = none := by
  cases l with
  | nil => rfl
  | cons c2 rest =>
    rw [matchPlaceholder_cons2, if_neg (fun hh => hc hh.1)]

theorem findList_text (t l : List Char) (ht : ∀ c ∈ t, c ≠ lbrace) :
    findList (t ++ l) = findList l := by
  induction t with
  | nil => simp
  | cons c t' ih =>
    rw [List.cons_append,
      findList_cons_none _ _ (matchPlaceholder_cons_ne _ _ (ht c (by simp))),
      ih (fun x hx => ht x (by simp [hx]))]

theorem matchPlaceholder_phChars (s f : String) (l : List Char)
    (hs : WordIdent s) (hf : WordIdent f) :
    matchPlaceholder (phChars s f ++ l) = some (s, f, l) := by
  have hrest : (s.toList ++ '.' :: (f.toList ++ [rbrace, rbrace])) ++ l
      = s.toList ++ '.' :: ((f.toList ++ [rbrace, rbrace]) ++ l) := by
    rw [List.append_assoc]
    rfl
  have hrest2 : (f.toList ++ [rbrace, rbrace]) ++ l
      = f.toList ++ rbrace :: (rbrace :: l) := by
    rw [List.append_assoc]
    rfl
  obtain ⟨htw1, hdw1⟩ := takeWhile_append_sep isWordChar s.toList '.'
    ((f.toList ++ [rbrace, rbrace]) ++ l) hs.2 (by decide)
  obtain ⟨htw2, hdw2⟩ := takeWhile_append_sep isWordChar f.toList rbrace
    (rbrace :: l) hf.2 (by decide)
  show matchPlaceholder (lbrace :: lbrace ::
    ((s.toList ++ '.' :: (f.toList ++ [rbrace, rbrace])) ++ l)) = some (s, f, l)
  rw [matchPlaceholder_cons2, if_pos ⟨rfl, rfl⟩, hrest, htw1, hdw1, if_neg hs.1]
  dsimp only
  rw [if_pos rfl, hrest2, htw2, hdw2, if_neg hf.1]
  dsimp only
  rw [if_pos ⟨rfl, rfl⟩]
  rw [show s.toList.asString = s from rfl, show f.toList.asString = f from rfl]

theorem startsWith_self_append : ∀ (p l : List Char), startsWithChars p (p ++ l) = true := by
  intro p
  induction p with
  | nil => intro l; rfl
  | cons a t ih =>
    intro l
    rw [List.cons_append]
    simp only [startsWithChars, ih l, beq_self_eq_true, Bool.and_self]

theorem phChars_ne_nil (s f : String) : phChars s f ≠ [] := by simp [phChars]

theorem findList_render : ∀ ps : List Piece, PiecesWF ps →
    findList (renderPieces ps) = phListOf ps := by
  intro ps
  induction ps with
  | nil => intro _; rfl
  | cons p rest ih =>
    intro hwf
    have hwrest : PiecesWF rest := fun q hq => hwf q (by simp [hq])
    cases p with
    | text t =>
      have hbf : BraceFree t := hwf (.text t) (by simp)
      simp only [renderPieces, phListOf]
      rw [findList_text t.toList _ (fun c hc => hbf c hc)]
      exact ih hwrest
    | ph s f =>
      have hpf : WordIdent s ∧ WordIdent f := hwf (.ph s f) (by simp)
      have hm : matchPlaceholder (phChars s f ++ renderPieces rest)
          = some (s, f, renderPieces rest) :=
        matchPlaceholder_phChars _ _ _ hpf.1 hpf.2
      simp only [renderPieces, phListOf]
      rw [show phChars s f ++ renderPieces rest
          = lbrace :: ((lbrace :: (s.toList ++ '.' :: (f.toList ++ [rbrace, rbrace])))
            ++ renderPieces rest) from rfl]
      rw [findList_cons_some _ _ s f (renderPieces rest) (by exact hm)]
      rw [ih hwrest]

theorem startsWith_sep_inj (p : Char → Bool) (sep : Char) (hsep : p sep = false) :
    ∀ (xs ys : List Char) (t1 t2 : List Char),
      (∀ x ∈ xs, p x = true) → (∀ y ∈ ys, p y = true) →
      startsWithChars (xs ++ sep :: t1) (ys ++ sep :: t2) = true →
      xs = ys ∧ startsWithChars t1 t2 = true := by
  intro xs
  induction xs with
  | nil =>
    intro ys t1 t2 _ hys h
    cases ys with
    | nil =>
      simp only [List.nil_append, startsWithChars, beq_self_eq_true,
        Bool.true_and] at h
      exact ⟨rfl, h⟩
    | cons y ys' =>
      exfalso
      simp only [List.nil_append, List.cons_append, startsWithChars,
        Bool.and_eq_true, beq_iff_eq] at h
      have hy : p y = true := hys y (by simp)
      rw [← h.1] at hy
      rw [hy] at hsep
      cases hsep
  | cons x xs' ih =>
    intro ys t1 t2 hxs hys h
    cases ys with
    | nil =>
      exfalso
      simp only [List.cons_append, List.nil_append, startsWithChars,
        Bool.and_eq_true, beq_iff_eq] at h
      have hx : p x = true := hxs x (by simp)
      rw [h.1] at hx
      rw [hx] at hsep
      cases hsep
    | cons y ys' =>
      simp only [List.cons_append, startsWithChars, Bool.and_eq_true,
        beq_iff_eq] at h
      obtain ⟨hxy, h'⟩ := h
      subst hxy
      obtain ⟨hta, htb⟩ := ih ys' t1 t2 (fun a ha => hxs a (by simp [ha]))
        (fun a ha => hys a (by simp [ha])) h'
      exact ⟨by rw [hta], htb⟩

theorem phChars_startsWith_inj (s f s' f' : String) (l : List Char)
    (hs : WordIdent s) (hf : WordIdent f) (hs' : WordIdent s') (hf' : WordIdent f')
    (h : startsWithChars (phChars s f) (phChars s' f' ++ l) = true) :
    s = s' ∧ f = f' := by
  rw [show phChars s' f' ++ l
      = lbrace :: lbrace :: ((s'.toList ++ '.' :: (f'.toList ++ [rbrace, rbrace])) ++ l)
    from rfl] at h
  simp only [phChars, startsWithChars, Bool.and_eq_true, beq_iff_eq] at h
  obtain ⟨-, -, h⟩ := h
  rw [show (s'.toList ++ '.' :: (f'.toList ++ [rbrace, rbrace])) ++ l
      = s'.toList ++ '.' :: ((f'.toList ++ [rbrace, rbrace]) ++ l) from by
    rw [List.append_assoc]; rfl] at h
  obtain ⟨hss, h2⟩ := startsWith_sep_inj isWordChar '.' (by decide)
    s.toList s'.toList _ _ hs.2 hs'.2 h
  rw [show (f'.toList ++ [rbrace, rbrace]) ++ l
      = f'.toList ++ rbrace :: (rbrace :: l) from by
    rw [List.append_assoc]; rfl] at h2
  obtain ⟨hff, -⟩ := startsWith_sep_inj isWordChar rbrace (by decide)
    f.toList f'.toList _ _ hf.2 hf'.2 h2
  exact ⟨toList_inj hss, toList_inj hff⟩

theorem replaceList_text (pat rep : List Char) (hpat : ∃ p', pat = lbrace :: p') :
    ∀ (t l : List Char), (∀ c ∈ t, c ≠ lbrace) →
      replaceList (t ++ l) pat rep = t ++ replaceList l pat rep := by
  obtain ⟨p', hp⟩ := hpat
  intro t
  induction t with
  | nil => intro l _; simp
  | cons c t' ih =>
    intro l ht
    have hc : c ≠ lbrace := ht c (by simp)
    have hsw : startsWithChars pat (c :: (t' ++ l)) = false := by
      rw [hp]
      simp only [startsWithChars]
      rw [show (lbrace == c) = false from by
        simp only [beq_eq_false_iff_ne, ne_eq]
        exact fun he => hc he.symm]
      rw [Bool.false_and]
    rw [List.cons_append, replaceList_cons_neg _ _ _ _ hsw,
      ih l (fun x hx => ht x (by simp [hx]))]
    rfl

theorem replaceList_phChars_eq (s f : String) (l rep : List Char) :
    replaceList (phChars s f ++ l) (phChars s f) rep
      = rep ++ replaceList l (phChars s f) rep := by
  rw [show phChars s f ++ l
      = lbrace :: ((lbrace :: (s.toList ++ '.' :: (f.toList ++ [rbrace, rbrace]))) ++ l)
    from rfl]
  rw [replaceList_cons_pos _ _ _ _ (phChars_ne_nil s f)
    (by exact startsWith_self_append (phChars s f) l)]
  congr 1
  rw [show (lbrace :: ((lbrace :: (s.toList ++ '.' :: (f.toList ++ [rbrace, rbrace]))) ++ l))
      = phChars s f ++ l from rfl]
  rw [List.drop_left]

theorem replaceList_phChars_ne (s f s' f' : String) (l rep : List Char)
    (hs : WordIdent s) (hf : WordIdent f) (hs' : WordIdent s') (hf' : WordIdent f')
    (hne : ¬(s' = s ∧ f' = f)) :
    replaceList (phChars s' f' ++ l) (phChars s f) rep
      = phChars s' f' ++ replaceList l (phChars s f) rep := by
  have h0 : startsWithChars (phChars s f) (phChars s' f' ++ l) = false := by
    cases hsw : startsWithChars (phChars s f) (phChars s' f' ++ l) with
    | false => rfl
    | true =>
      obtain ⟨h1, h2⟩ := phChars_startsWith_inj s f s' f' l hs hf hs' hf' hsw
      exact absurd ⟨h1.symm, h2.symm⟩ hne
  obtain ⟨c0, s0', hc0⟩ : ∃ c0 s0', s'.toList = c0 :: s0' := by
    cases hls : s'.toList with
    | nil => exact absurd hls hs'.1
    | cons a b => exact ⟨a, b, rfl⟩
  have hc0w : isWordChar c0 = true := hs'.2 c0 (by rw [hc0]; simp)
  have h1 : startsWithChars (phChars s f)
      (lbrace :: ((s'.toList ++ '.' :: (f'.toList ++ [rbrace, rbrace])) ++ l)) = false := by
    rw [hc0]
    rw [show ((c0 :: s0') ++ '.' :: (f'.toList ++ [rbrace, rbrace])) ++ l
        = c0 :: ((s0' ++ '.' :: (f'.toList ++ [rbrace, rbrace])) ++ l) from rfl]
    simp only [phChars, startsWithChars]
    rw [show (lbrace == c0) = false from by
      simp only [beq_eq_false_iff_ne, ne_eq]
      exact fun he => (word_ne_lbrace hc0w) he.symm]
    simp
  have hbf : ∀ c ∈ s'.toList ++ '.' :: (f'.toList ++ [rbrace, rbrace]), c ≠ lbrace := by
    intro c hc
    simp only [List.mem_append, List.mem_cons] at hc
    rcases hc with hc | hc | hc
    · exact word_ne_lbrace (hs'.2 c hc)
    · rw [hc]; decide
    · simp only [List.mem_append, List.mem_cons, List.not_mem_nil, or_false] at hc
      rcases hc with hc | hc | hc
      · exact word_ne_lbrace (hf'.2 c hc)
      · rw [hc]; decide
      · rw [hc]; decide
  rw [show phChars s' f' ++ l
      = lbrace :: ((lbrace :: (s'.toList ++ '.' :: (f'.toList ++ [rbrace, rbrace]))) ++ l)
    from rfl]
  rw [replaceList_cons_neg _ _ _ _ (by exact h0)]
  rw [show ((lbrace :: (s'.toList ++ '.' :: (f'.toList ++ [rbrace, rbrace]))) ++ l)
      = lbrace :: ((s'.toList ++ '.' :: (f'.toList ++ [rbrace, rbrace])) ++ l) from rfl]
  rw [replaceList_cons_neg _ _ _ _ h1]
  rw [replaceList_text (phChars s f) rep ⟨_, rfl⟩
    (s'.toList ++ '.' :: (f'.toList ++ [rbrace, rbrace])) l hbf]
  rfl

theorem replaceList_render (s f : String) (rep : List Char)
    (hs : WordIdent s) (hf : WordIdent f) :
    ∀ ps : List Piece, PiecesWF ps →
      replaceList (renderPieces ps) (phChars s f) rep
        = renderPieces (ps.map (replacePh s f rep.asString)) := by
  intro ps
  induction ps with
  | nil => intro _; rfl
  | cons p rest ih =>
    intro hwf
    have hwrest : PiecesWF rest := fun q hq => hwf q (by simp [hq])
    cases p with
    | text t =>
      have hbf : BraceFree t := hwf (.text t) (by simp)
      simp only [renderPieces, List.map, replacePh]
      rw [replaceList_text (phChars s f) rep ⟨_, rfl⟩ t.toList (renderPieces rest)
        (fun c hc => hbf c hc)]
      rw [ih hwrest]
    | ph s' f' =>
      have hpf : WordIdent s' ∧ WordIdent f' := hwf (.ph s' f') (by simp)
      by_cases heq : s' = s ∧ f' = f
      · rw [heq.1, heq.2]
        simp only [renderPieces, List.map]
        rw [show replacePh s f rep.asString (.ph s f) = .text rep.asString from by
          simp [replacePh]]
        rw [replaceList_phChars_eq, ih hwrest]
        rfl
      · simp only [renderPieces, List.map, replacePh, if_neg heq]
        rw [replaceList_phChars_ne s f s' f' _ rep hs hf hpf.1 hpf.2 heq,
          ih hwrest]

theorem resolveString_eq_fold (ctx : List (String × StepResult)) (s : String) :
    resolveString ctx s = (findPlaceholders s).foldl (substAcc ctx) s := by
  unfold resolveString
  congr 1
  funext acc m
  unfold substAcc phSubst
  cases lookupAssoc ctx m.1 with
  | none => rfl
  | some r =>
    dsimp only
    cases hst : (r.status == "success") with
    | false => simp
    | true =>
      cases lookupAssoc (r.outputs.getD []) m.2 with
      | none => simp
      | some v => simp

theorem map_substMs_nil (ctx : List (String × StepResult)) :
    ∀ ps : List Piece, ps.map (substMs ctx []) = ps := by
  intro ps
  induction ps with
  | nil => rfl
  | cons p rest ih =>
    cases p with
    | text t => simp [substMs, ih]
    | ph s f => simp [substMs, ih]

theorem pyReplace_render (s f : String) (rep : String)
    (hs : WordIdent s) (hf : WordIdent f) (ps : List Piece) (hwf : PiecesWF ps) :
    pyReplace (renderString ps) (placeholderText s f) rep
      = renderString (ps.map (replacePh s f rep)) := by
  unfold pyReplace renderString
  rw [show ((renderPieces ps).asString).toList = renderPieces ps from rfl]
  rw [placeholderText_toList]
  rw [show replaceAux (renderPieces ps).length (renderPieces ps) (phChars s f) rep.toList
      = replaceList (renderPieces ps) (phChars s f) rep.toList from rfl]
  rw [replaceList_render s f rep.toList hs hf ps hwf]
  rw [show rep.toList.asString = rep from rfl]

theorem foldl_substAcc (ctx : List (String × StepResult)) :
    ∀ (ms : List (String × String)) (ps : List Piece),
      PiecesWF ps →
      (∀ m ∈ ms, WordIdent m.1 ∧ WordIdent m.2) →
      (∀ m ∈ ms, ∀ rep, phSubst ctx m.1 m.2 = some rep → BraceFree rep) →
      ms.foldl (substAcc ctx) (renderString ps)
        = renderString (ps.map (substMs ctx ms)) := by
  intro ms
  induction ms with
  | nil =>
    intro ps hwf _ _
    rw [map_substMs_nil]
    rfl
  | cons m ms' ih =>
    intro ps hwf hmw hmr
    rw [List.foldl_cons]
    have hmw1 := hmw m (by simp)
    cases hsub : phSubst ctx m.1 m.2 with
    | some rep =>
      have hrepbf : BraceFree rep := hmr m (by simp) rep hsub
      have hstep : substAcc ctx (renderString ps) m
          = renderString (ps.map (replacePh m.1 m.2 rep)) := by
        unfold substAcc
        rw [hsub]
        exact pyReplace_render m.1 m.2 rep hmw1.1 hmw1.2 ps hwf
      rw [hstep]
      have hwf' : PiecesWF (ps.map (replacePh m.1 m.2 rep)) := by
        intro q hq
        rw [List.mem_map] at hq
        obtain ⟨p, hp, hpq⟩ := hq
        subst hpq
        cases p with
        | text t => exact hwf (.text t) hp
        | ph s' f' =>
          by_cases he : s' = m.1 ∧ f' = m.2
          · rw [show replacePh m.1 m.2 rep (.ph s' f') = .text rep from by
              simp [replacePh, he.1, he.2]]
            exact hrepbf
          · rw [show replacePh m.1 m.2 rep (.ph s' f') = .ph s' f' from by
              simp [replacePh, he]]
            exact hwf (.ph s' f') hp
      rw [ih (ps.map (replacePh m.1 m.2 rep)) hwf'
        (fun x hx => hmw x (by simp [hx])) (fun x hx => hmr x (by simp [hx]))]
      rw [List.map_map]
      congr 1
      apply List.map_congr_left
      intro p hp
      cases p with
      | text t => rfl
      | ph s' f' =>
        by_cases he : s' = m.1 ∧ f' = m.2
        · show substMs ctx ms' (replacePh m.1 m.2 rep (.ph s' f'))
            = substMs ctx (m :: ms') (.ph s' f')
          rw [he.1, he.2]
          rw [show replacePh m.1 m.2 rep (.ph m.1 m.2) = .text rep from by
            simp [replacePh]]
          have hmem : ((m.1, m.2) : String × String) ∈ m :: ms' := by
            rw [show ((m.1, m.2) : String × String) = m from rfl]
            simp
          rw [show substMs ctx (m :: ms') (.ph m.1 m.2) = .text rep from by
            simp only [substMs, if_pos hmem]
            rw [hsub]]
          rfl
        · show substMs ctx ms' (replacePh m.1 m.2 rep (.ph s' f'))
            = substMs ctx (m :: ms') (.ph s' f')
          rw [show replacePh m.1 m.2 rep (.ph s' f') = .ph s' f' from by
            simp [replacePh, he]]
          by_cases hmem : ((s', f') : String × String) ∈ ms'
          · simp only [substMs, if_pos hmem, if_pos (List.mem_cons_of_mem m hmem)]
          · have hnc : ((s', f') : String × String) ∉ m :: ms' := by
              rw [List.mem_cons]
              rintro (hh | hh)
              · exact he ⟨congrArg Prod.fst hh, congrArg Prod.snd hh⟩
              · exact hmem hh
            simp only [substMs, if_neg hmem, if_neg hnc]
    | none =>
      have hstep : substAcc ctx (renderString ps) m = renderString ps := by
        unfold substAcc
        rw [hsub]
      rw [hstep]
      rw [ih ps hwf (fun x hx => hmw x (by simp [hx]))
        (fun x hx => hmr x (by simp [hx]))]
      congr 1
      apply List.map_congr_left
      intro p hp
      cases p with
      | text t => rfl
      | ph s' f' =>
        by_cases he : ((s', f') : String × String) = m
        · by_cases hmem : ((s', f') : String × String) ∈ ms'
          · simp only [substMs, if_pos hmem, if_pos (List.mem_cons_of_mem m hmem)]
          · have hc : ((s', f') : String × String) ∈ m :: ms' := by
              rw [List.mem_cons]
              exact Or.inl he
            simp only [substMs, if_neg hmem, if_pos hc]
            have h1 : s' = m.1 := congrArg Prod.fst he
            have h2 : f' = m.2 := congrArg Prod.snd he
            rw [h1, h2, hsub]
        · have hnc : (((s', f') : String × String) ∈ m :: ms')
              ↔ (((s', f') : String × String) ∈ ms') := by
            rw [List.mem_cons]
            constructor
            · rintro (hh | hh)
              · exact absurd hh he
              · exact hh
            · exact Or.inr
          by_cases hmem : ((s', f') : String × String) ∈ ms'
          · simp only [substMs, if_pos hmem, if_pos (hnc.mpr hmem)]
          · simp only [substMs, if_neg hmem, if_neg (fun hh => hmem (hnc.mp hh))]

theorem mem_phListOf : ∀ (ps : List Piece) (m : String × String),
    m ∈ phListOf ps → Piece.ph m.1 m.2 ∈ ps := by
  intro ps
  induction ps with
  | nil => intro m h; simp [phListOf] at h
  | cons p rest ih =>
    intro m h
    cases p with
    | text t =>
      simp only [phListOf] at h
      exact List.mem_cons_of_mem _ (ih m h)
    | ph s f =>
      simp only [phListOf, List.mem_cons] at h
      rcases h with h | h
      · subst h
        simp
      · exact List.mem_cons_of_mem _ (ih m h)

theorem ph_mem_phListOf : ∀ (ps : List Piece) (s f : String),
    Piece.ph s f ∈ ps → (s, f) ∈ phListOf ps := by
  intro ps
  induction ps with
  | nil => intro s f h; simp at h
  | cons p rest ih =>
    intro s f h
    rw [List.mem_cons] at h
    rcases h with h | h
    · rw [← h]
      simp [phListOf]
    · cases p with
      | text t =>
        simp only [phListOf]
        exact ih s f h
      | ph s0 f0 =>
        simp only [phListOf, List.mem_cons]
        exact Or.inr (ih s f h)

/-- `resolve_value` on a string assembled from brace-free chunks and
placeholders: every resolvable placeholder is substituted, the rest are
left as literals, the chunks are untouched. -/
theorem resolveString_render (ctx : List (String × StepResult)) (ps : List Piece)
    (hwf : PiecesWF ps)
    (hreps : ∀ s f, Piece.ph s f ∈ ps →
      ∀ rep, phSubst ctx s f = some rep → BraceFree rep) :
    resolveString ctx (renderString ps) = renderString (ps.map (substPiece ctx)) := by
  rw [resolveString_eq_fold]
  rw [show findPlaceholders (renderString ps) = findList (renderPieces ps) from rfl]
  rw [findList_render ps hwf]
  rw [foldl_substAcc ctx (phListOf ps) ps hwf
    (fun m hm => hwf (.ph m.1 m.2) (mem_phListOf ps m hm))
    (fun m hm rep h => hreps m.1 m.2 (mem_phListOf ps m hm) rep h)]
  congr 1
  apply List.map_congr_left
  intro p hp
  cases p with
  | text t => rfl
  | ph s f =>
    have hmem : (s, f) ∈ phListOf ps := ph_mem_phListOf ps s f hp
    simp only [substMs, substPiece, if_pos hmem]

theorem lookup_mapVals (g : Json → Json) : ∀ (fields : JsonObj) (k : String),
    JsonObj.lookup (JsonObj.mapVals g fields) k = (JsonObj.lookup fields k).map g
  | .nil, _ => rfl
  | .cons k0 v t, k => by
    simp only [JsonObj.mapVals, JsonObj.lookup]
    by_cases hk : (k0 == k) = true
    · rw [if_pos hk, if_pos hk]
      rfl
    · rw [if_neg hk, if_neg hk]
      exact lookup_mapVals g t k

theorem get?_mapItems (g : Json → Json) : ∀ (items : JsonList) (n : Nat),
    JsonList.get? (JsonList.mapItems g items) n = (JsonList.get? items n).map g
  | .nil, _ => rfl
  | .cons _ _, 0 => rfl
  | .cons _ t, n + 1 => get?_mapItems g t n

theorem resolveValue_non_str (ctx : List (String × StepResult)) :
    ∀ w : Json, (∀ s, w ≠ .str s) → resolveValue ctx w = w
  | .str s, h => absurd rfl (h s)
  | .num _, _ => rfl
  | .bool _, _ => rfl
  | .null, _ => rfl
  | .arr _, _ => rfl
  | .obj _, _ => rfl

/-! ## Claim theorems: reference resolution (C8) -/

/-- A context where step `s1` succeeded with outputs `{name: "alice"}`. -/
def c8Ctx : List (String × StepResult) :=
  [("s1", { status := "success", outputs := some [("name", Json.str "alice")] })]

/-- `{"a": ["{{s1.name}}"]}`: a resolvable placeholder at nesting
depth 2. -/
def c8Nested : Json :=
  .obj (.cons "a" (.arr (.cons (.str (placeholderText "s1" "name")) .nil)) .nil)

/-- **C8 counterexample.**  A resolvable placeholder one level down
(inside a list inside the map) is left untouched: the resolver does
**not** traverse lists and maps recursively. -/
theorem c8_nested_placeholder_untouched :
    resolveInputs c8Nested c8Ctx = c8Nested ∧
    c8Nested ≠ .obj (.cons "a" (.arr (.cons (.str "alice") .nil)) .nil) :=
  ⟨by decide, by decide⟩

/-- **C8 (amended).**  Resolution is one level deep and substitutes each
scanned placeholder by `str(...)` of the step output.  `phSubst` is
exactly the rule "`str(context[S].outputs[F])` on a successful step `S`
holding field `F`, nothing when `S` is missing, failed, or lacks `F`"
(conjuncts 1-4), and `substPiece` applies it to a placeholder, leaving
it as a literal when it yields nothing (conjuncts 5-7).  For every
context and every string decomposing into brace-free chunks and
`{{S.F}}` placeholders, a direct value of the top-level map (conjunct
8), a direct item of a top-level list (conjunct 9), or the input itself
when it is a string (conjunct 10) is rewritten by exactly that
per-placeholder substitution; and every non-string direct value -
scalars and nested containers, whatever placeholders they hold - passes
through verbatim (conjunct 11). -/
theorem c8_resolution_is_top_level_only :
    (∀ (ctx : List (String × StepResult)) (S F : String) (r : StepResult) (v : Json),
      lookupAssoc ctx S = some r → r.status = "success" →
      lookupAssoc (r.outputs.getD []) F = some v →
      phSubst ctx S F = some (pyStr v)) ∧
    (∀ (ctx : List (String × StepResult)) (S F : String),
      lookupAssoc ctx S = none → phSubst ctx S F = none) ∧
    (∀ (ctx : List (String × StepResult)) (S F : String) (r : StepResult),
      lookupAssoc ctx S = some r → r.status ≠ "success" →
      phSubst ctx S F = none) ∧
    (∀ (ctx : List (String × StepResult)) (S F : String) (r : StepResult),
      lookupAssoc ctx S = some r → lookupAssoc (r.outputs.getD []) F = none →
      phSubst ctx S F = none) ∧
    (∀ (ctx : List (String × StepResult)) (S F : String) (rep : String),
      phSubst ctx S F = some rep → substPiece ctx (.ph S F) = .text rep) ∧
    (∀ (ctx : List (String × StepResult)) (S F : String),
      phSubst ctx S F = none → substPiece ctx (.ph S F) = .ph S F) ∧
    (∀ (ctx : List (String × StepResult)) (t : String),
      substPiece ctx (.text t) = .text t) ∧
    (∀ (ctx : List (String × StepResult)) (fields : JsonObj) (k : String)
      (ps : List Piece),
      PiecesWF ps →
      (∀ s f, Piece.ph s f ∈ ps → ∀ rep, phSubst ctx s f = some rep → BraceFree rep) →
      JsonObj.lookup fields k = some (.str (renderString ps)) →
      ∃ fields2, resolveInputs (.obj fields) ctx = .obj fields2 ∧
        JsonObj.lookup fields2 k
          = some (.str (renderString (ps.map (substPiece ctx))))) ∧
    (∀ (ctx : List (String × StepResult)) (items : JsonList) (n : Nat)
      (ps : List Piece),
      PiecesWF ps →
      (∀ s f, Piece.ph s f ∈ ps → ∀ rep, phSubst ctx s f = some rep → BraceFree rep) →
      JsonList.get? items n = some (.str (renderString ps)) →
      ∃ items2, resolveInputs (.arr items) ctx = .arr items2 ∧
        JsonList.get? items2 n
          = some (.str (renderString (ps.map (substPiece ctx))))) ∧
    (∀ (ctx : List (String × StepResult)) (ps : List Piece),
      PiecesWF ps →
      (∀ s f, Piece.ph s f ∈ ps → ∀ rep, phSubst ctx s f = some rep → BraceFree rep) →
      resolveInputs (.str (renderString ps)) ctx
        = .str (renderString (ps.map (substPiece ctx)))) ∧
    (∀ (ctx : List (String × StepResult)) (fields : JsonObj) (k : String) (w : Json),
      JsonObj.lookup fields k = some w → (∀ s, w ≠ .str s) →
      ∃ fields2, resolveInputs (.obj fields) ctx = .obj fields2 ∧
        JsonObj.lookup fields2 k = some w) := by
  refine ⟨?_, ?_, ?_, ?_, ?_, ?_, ?_, ?_, ?_, ?_, ?_⟩
  · intro ctx S F r v h1 h2 h3
    unfold phSubst
    rw [h1]
    dsimp only
    rw [show (r.status == "success") = true from by simp [h2]]
    simp only [if_true]
    rw [h3]
    rfl
  · intro ctx S F h
    unfold phSubst
    rw [h]
  · intro ctx S F r h1 h2
    unfold phSubst
    rw [h1]
    dsimp only
    rw [show (r.status == "success") = false from by simpa using h2]
    simp only [Bool.false_eq_true, if_false]
  · intro ctx S F r h1 h3
    unfold phSubst
    rw [h1]
    dsimp only
    by_cases hst : (r.status == "success") = true
    · rw [hst]
      simp only [if_true]
      rw [h3]
      rfl
    · rw [show (r.status == "success") = false from by simpa using hst]
      simp only [Bool.false_eq_true, if_false]
  · intro ctx S F rep h
    simp only [substPiece]
    rw [h]
  · intro ctx S F h
    simp only [substPiece]
    rw [h]
  · intro ctx t
    rfl
  · intro ctx fields k ps hwf hreps hlk
    refine ⟨fields.mapVals (resolveValue ctx), rfl, ?_⟩
    rw [lookup_mapVals, hlk]
    dsimp only [Option.map]
    rw [show resolveValue ctx (.str (renderString ps))
        = .str (resolveString ctx (renderString ps)) from rfl]
    rw [resolveString_render ctx ps hwf hreps]
  · intro ctx items n ps hwf hreps hlk
    refine ⟨items.mapItems (resolveValue ctx), rfl, ?_⟩
    rw [get?_mapItems, hlk]
    dsimp only [Option.map]
    rw [show resolveValue ctx (.str (renderString ps))
        = .str (resolveString ctx (renderString ps)) from rfl]
    rw [resolveString_render ctx ps hwf hreps]
  · intro ctx ps hwf hreps
    show Json.str (resolveString ctx (renderString ps)) = _
    rw [resolveString_render ctx ps hwf hreps]
  · intro ctx fields k w hlk hns
    refine ⟨fields.mapVals (resolveValue ctx), rfl, ?_⟩
    rw [lookup_mapVals, hlk]
    dsimp only [Option.map]
    rw [resolveValue_non_str ctx w hns]

/-- Closed witness for C8 (amended): the scenario-S5 map
`{greeting: "hello {{s1.name}}"}` resolved in a context where `s1`
succeeded with `outputs = {name: "alice"}`. -/
theorem c8_resolution_is_top_level_only_witness :
    ∃ fields2,
      resolveInputs (.obj (.cons "greeting"
          (.str (renderString [Piece.text "hello ", Piece.ph "s1" "name"])) .nil))
          c8Ctx
        = .obj fields2 ∧
      JsonObj.lookup fields2 "greeting" = some (.str (renderString
        ([Piece.text "hello ", Piece.ph "s1" "name"].map (substPiece c8Ctx)))) :=
  c8_resolution_is_top_level_only.2.2.2.2.2.2.2.1 c8Ctx
    (.cons "greeting"
      (.str (renderString [Piece.text "hello ", Piece.ph "s1" "name"])) .nil)
    "greeting" [Piece.text "hello ", Piece.ph "s1" "name"]
    (by decide)
    (by
      intro s f hmem rep hsub
      simp only [List.mem_cons, List.not_mem_nil, or_false] at hmem
      rcases hmem with h | h
      · simp at h
      · injection h with h1 h2
        subst h1
        subst h2
        rw [show phSubst c8Ctx "s1" "name" = some "alice" from by decide] at hsub
        injection hsub with h3
        subst h3
        decide)
    rfl

/-! ## Claim theorems: orchestration (C5, C6, C10) -/

theorem execSequential_preserves (db : OrchDb) (env : OrchEnv) :
    ∀ (steps : List WStep) (init : List (String × StepResult))
      (calls : List SandboxCall) (k : String),
      (lookupAssoc init k).isSome →
      (lookupAssoc (execSequential db env steps init calls).1 k).isSome := by
  intro steps
  induction steps with
  | nil => intro init calls k h; exact h
  | cons s rest ih =>
    intro init calls k h
    rcases hex : executeStep db env init s with ⟨r, cs⟩
    simp only [execSequential, hex]
    exact ih _ _ k (lookup_setAssoc_isSome _ _ _ _ h)

/-- Every step of the list ends up with an entry in the sequential
results map. -/
theorem execSequential_covers (db : OrchDb) (env : OrchEnv) :
    ∀ (steps : List WStep) (init : List (String × StepResult))
      (calls : List SandboxCall), ∀ step ∈ steps,
      (lookupAssoc (execSequential db env steps init calls).1
        step.step_id).isSome := by
  intro steps
  induction steps with
  | nil => intro init calls step h; cases h
  | cons s rest ih =>
    intro init calls step h
    rcases hex : executeStep db env init s with ⟨r, cs⟩
    simp only [execSequential, hex]
    rcases List.mem_cons.mp h with rfl | h'
    · exact execSequential_preserves db env rest _ _ _
        (by rw [lookup_setAssoc_self]; rfl)
    · exact ih _ _ step h'

/-- The dependency graph of an empty step list has no cycle. -/
theorem not_hasCycle_nil : ¬ HasCycle [] := by
  intro h
  have := (checkCyclic_iff []).mpr h
  simp [checkCyclicDependencies, dfsLoop, graphKeys, dedupFirst, stepIds] at this

/-- **C5.**  Orchestration reports error code `WORKFLOW_002` exactly
when the dependency graph `step_id → depends_on` contains a cycle; and
when it does, no sandbox call is made and no step result is produced. -/
theorem c5_workflow002_iff_cycle (req : OrchRequest) (db : OrchDb)
    (env : OrchEnv) :
    ((orchestrateSkills req db env).response.errorCode = some "WORKFLOW_002"
      ↔ HasCycle req.workflow.steps) ∧
    (HasCycle req.workflow.steps →
      (orchestrateSkills req db env).calls = [] ∧
      (orchestrateSkills req db env).response.results = none) := by
  by_cases hempty : req.workflow.steps.isEmpty
  · have hnil : req.workflow.steps = [] := List.isEmpty_iff.mp hempty
    have hout : orchestrateSkills req db env =
        ⟨⟨"error", none, none, none, some "编排失败", some "WORKFLOW_999",
          some "工作流必须包含至少一个步骤"⟩, db, []⟩ := by
      simp only [orchestrateSkills, hempty, if_true]
    rw [hout]
    refine ⟨iff_of_false (by simp) (by rw [hnil]; exact not_hasCycle_nil), ?_⟩
    intro _
    exact ⟨rfl, rfl⟩
  · have hempty' : req.workflow.steps.isEmpty = false := by
      simpa using hempty
    by_cases hcyc : checkCyclicDependencies req.workflow.steps
    · have hout : orchestrateSkills req db env =
          ⟨⟨"error", none, none, none, some "工作流存在循环依赖",
            some "WORKFLOW_002", some "检测到循环依赖"⟩, db, []⟩ := by
        simp only [orchestrateSkills, hempty', Bool.false_eq_true, if_false,
          hcyc, if_true]
      rw [hout]
      exact ⟨iff_of_true rfl ((checkCyclic_iff _).mp hcyc),
        fun _ => ⟨rfl, rfl⟩⟩
    · have hnc : ¬ HasCycle req.workflow.steps :=
        fun h => hcyc ((checkCyclic_iff _).mpr h)
      have hcyc' : checkCyclicDependencies req.workflow.steps = false := by
        simpa using hcyc
      refine ⟨iff_of_false ?_ hnc, fun h => absurd h hnc⟩
      intro hcode
      by_cases hwid : req.workflow_id ∈ db.workflows
      · rw [show orchestrateSkills req db env =
            ⟨⟨"error", none, none, none, some "编排失败", some "WORKFLOW_999",
              some "UNIQUE constraint failed: workflows.workflow_id"⟩,
              db, []⟩ from by
          simp only [orchestrateSkills, hempty', Bool.false_eq_true, if_false,
            hcyc', hwid, if_true]] at hcode
        exact absurd hcode (by simp)
      · cases h0 : env.commitFail 0 with
        | some msg =>
          rw [show orchestrateSkills req db env =
              ⟨⟨"error", none, none, none, some "编排失败", some "WORKFLOW_999",
                some msg⟩, db, []⟩ from by
            simp only [orchestrateSkills, hempty', Bool.false_eq_true, if_false,
              hcyc', hwid, h0]] at hcode
          exact absurd hcode (by simp)
        | none =>
          cases h1 : env.commitFail 1 with
          | some msg =>
            rw [show (orchestrateSkills req db env).response.errorCode =
                some "WORKFLOW_999" from by
              simp only [orchestrateSkills, hempty', Bool.false_eq_true,
                if_false, hcyc', hwid, h0, h1]] at hcode
            exact absurd hcode (by simp)
          | none =>
            cases h2 : env.commitFail 2 with
            | none =>
              rw [show (orchestrateSkills req db env).response.errorCode =
                  none from by
                simp only [orchestrateSkills, hempty', Bool.false_eq_true,
                  if_false, hcyc', hwid, h0, h1, h2]] at hcode
              exact absurd hcode (by simp)
            | some msg =>
              cases h3 : env.commitFail 3 with
              | none =>
                rw [show (orchestrateSkills req db env).response.errorCode =
                    some "WORKFLOW_003" from by
                  simp only [orchestrateSkills, hempty', Bool.false_eq_true,
                    if_false, hcyc', hwid, h0, h1, h2, h3]] at hcode
                exact absurd hcode (by simp)
              | some msg2 =>
                rw [show (orchestrateSkills req db env).response.errorCode =
                    some "WORKFLOW_999" from by
                  simp only [orchestrateSkills, hempty', Bool.false_eq_true,
                    if_false, hcyc', hwid, h0, h1, h2, h3]] at hcode
                exact absurd hcode (by simp)

/-- The cyclic two-step workflow of scenario S3. -/
def c5Steps : List WStep :=
  [⟨"s1", "sk", .obj .nil, ["s2"]⟩, ⟨"s2", "sk", .obj .nil, ["s1"]⟩]

/-- Scenario S3 as a request. -/
def c5Req : OrchRequest := ⟨"wf-s3", ⟨"wf", none, c5Steps⟩, .sequential, 300⟩

/-- An all-green orchestration environment. -/
def c5Env : OrchEnv :=
  ⟨"exec-s3", fun _ _ _ => { status := "success" }, fun _ => none, 0⟩

/-- Closed witness for C5, at the cyclic workflow of scenario S3. -/
theorem c5_workflow002_iff_cycle_witness :
    (orchestrateSkills c5Req ⟨[], [], []⟩ c5Env).response.errorCode
      = some "WORKFLOW_002" := by
  have h := (c5_workflow002_iff_cycle c5Req ⟨[], [], []⟩ c5Env).1
  have e12 : ("s2" : String) ∈ adjGet c5Steps "s1" := by decide
  have e21 : ("s1" : String) ∈ adjGet c5Steps "s2" := by decide
  exact h.mpr ⟨"s1", Relation.TransGen.head e12 (Relation.TransGen.single e21)⟩

/-- The database state created by the two persistence commits of a
successful validation phase. -/
def orchDbRunning (req : OrchRequest) (db : OrchDb) (env : OrchEnv) : OrchDb :=
  { skills := db.skills
    workflows := db.workflows ++ [req.workflow_id]
    workflowExecutions := db.workflowExecutions ++
      [⟨env.genExecutionId, req.workflow_id, "running", none, none, none⟩] }

/-- Shape of the response on the fully successful path. -/
theorem orchestrate_success_shape (req : OrchRequest) (db : OrchDb)
    (env : OrchEnv)
    (hempty : req.workflow.steps.isEmpty = false)
    (hcyc : checkCyclicDependencies req.workflow.steps = false)
    (hwid : req.workflow_id ∉ db.workflows)
    (h0 : env.commitFail 0 = none) (h1 : env.commitFail 1 = none)
    (h2 : env.commitFail 2 = none) :
    (orchestrateSkills req db env).response.status = "success" ∧
    (orchestrateSkills req db env).response.results
      = some (executeWorkflow req.workflow.steps req.execution_mode
          (orchDbRunning req db env) env).1 ∧
    (orchestrateSkills req db env).db.workflows
      = db.workflows ++ [req.workflow_id] := by
  simp only [orchestrateSkills, hempty, Bool.false_eq_true, if_false, hcyc,
    hwid, h0, h1, h2, if_true, updateExecRow, orchDbRunning]
  exact ⟨trivial, trivial, trivial⟩

/-- The two-step workflow whose second step depends on the unknown id
`ghost`. -/
def c6Steps : List WStep :=
  [⟨"s1", "sk", .obj .nil, []⟩, ⟨"s2", "sk", .obj .nil, ["ghost"]⟩]

/-- The unknown-dependency request, sequential mode. -/
def c6Req : OrchRequest := ⟨"wf-c6", ⟨"wf", none, c6Steps⟩, .sequential, 300⟩

/-- A database carrying the one referenced skill. -/
def c6Db : OrchDb := ⟨[{ skill_id := "sk" }], [], []⟩

/-- An all-green environment for the unknown-dependency request. -/
def c6Env : OrchEnv :=
  ⟨"exec-c6", fun _ _ _ => { status := "success", outputs := some [] },
    fun _ => none, 0⟩

/-- **C6 counterexample.**  A `depends_on` entry naming no step
(`ghost`) does **not** fail validation: orchestration reports `success`
and in sequential mode both steps execute (two sandbox calls are
made). -/
theorem c6_unknown_dep_not_rejected :
    (orchestrateSkills c6Req c6Db c6Env).response.status = "success" ∧
    (orchestrateSkills c6Req c6Db c6Env).calls.length = 2 :=
  ⟨by decide, by decide⟩

/-- **C6 (amended).**  Pre-execution validation checks only for cycles:
for any workflow whose dependency graph is acyclic — including one with
unknown `depends_on` identifiers or duplicate step ids — validation
passes, and in sequential mode every declared step is executed and
recorded in the results map. -/
theorem c6_only_cycles_validated (req : OrchRequest) (db : OrchDb)
    (env : OrchEnv)
    (hmode : req.execution_mode = .sequential)
    (hne : req.workflow.steps ≠ [])
    (hnc : ¬ HasCycle req.workflow.steps)
    (hwid : req.workflow_id ∉ db.workflows)
    (hcf : ∀ k, env.commitFail k = none) :
    (orchestrateSkills req db env).response.status = "success" ∧
    ∃ results, (orchestrateSkills req db env).response.results = some results ∧
      ∀ step ∈ req.workflow.steps, (lookupAssoc results step.step_id).isSome := by
  have hempty' : req.workflow.steps.isEmpty = false := by
    cases hs : req.workflow.steps with
    | nil => exact absurd hs hne
    | cons a t => rfl
  have hcheck : checkCyclicDependencies req.workflow.steps = false := by
    cases h : checkCyclicDependencies req.workflow.steps with
    | false => rfl
    | true => exact absurd ((checkCyclic_iff _).mp h) hnc
  obtain ⟨hstat, hres, -⟩ := orchestrate_success_shape req db env hempty'
    hcheck hwid (hcf 0) (hcf 1) (hcf 2)
  refine ⟨hstat, _, hres, ?_⟩
  intro step hstep
  rw [hmode]
  exact execSequential_covers (orchDbRunning req db env) env
    req.workflow.steps [] [] step hstep

/-- Closed witness for C6 (amended). -/
theorem c6_only_cycles_validated_witness :
    (orchestrateSkills c6Req c6Db c6Env).response.status = "success" ∧
    ∃ results, (orchestrateSkills c6Req c6Db c6Env).response.results
        = some results ∧
      ∀ step ∈ c6Req.workflow.steps, (lookupAssoc results step.step_id).isSome :=
  c6_only_cycles_validated c6Req c6Db c6Env rfl (by decide)
    (fun h => absurd ((checkCyclic_iff _).mpr h) (by decide))
    (by decide) (fun _ => rfl)

/-- **C10.**  A `workflow_id` can be orchestrated successfully at most
once: when the id is already persisted, the unique constraint makes the
first commit fail, so (for an otherwise valid workflow) the caller gets
`status=error` with `WORKFLOW_999` before any sandbox call and the
database is untouched; and every successful orchestration leaves the id
persisted. -/
theorem c10_workflow_id_unique (req : OrchRequest) (db : OrchDb)
    (env : OrchEnv) :
    (req.workflow_id ∈ db.workflows → ¬ HasCycle req.workflow.steps →
      ((orchestrateSkills req db env).response.status = "error" ∧
       (orchestrateSkills req db env).response.errorCode
          = some "WORKFLOW_999" ∧
       (orchestrateSkills req db env).calls = [] ∧
       (orchestrateSkills req db env).db = db)) ∧
    ((orchestrateSkills req db env).response.status = "success" →
      req.workflow_id ∈ (orchestrateSkills req db env).db.workflows) := by
  constructor
  · intro hwid hnc
    by_cases hempty : req.workflow.steps.isEmpty
    · rw [show orchestrateSkills req db env =
          ⟨⟨"error", none, none, none, some "编排失败", some "WORKFLOW_999",
            some "工作流必须包含至少一个步骤"⟩, db, []⟩ from by
        simp only [orchestrateSkills, hempty, if_true]]
      exact ⟨rfl, rfl, rfl, rfl⟩
    · have hempty' : req.workflow.steps.isEmpty = false := by simpa using hempty
      have hcyc' : checkCyclicDependencies req.workflow.steps = false := by
        cases h : checkCyclicDependencies req.workflow.steps with
        | false => rfl
        | true => exact absurd ((checkCyclic_iff _).mp h) hnc
      rw [show orchestrateSkills req db env =
          ⟨⟨"error", none, none, none, some "编排失败", some "WORKFLOW_999",
            some "UNIQUE constraint failed: workflows.workflow_id"⟩, db, []⟩ from by
        simp only [orchestrateSkills, hempty', Bool.false_eq_true, if_false,
          hcyc', hwid, if_true]]
      exact ⟨rfl, rfl, rfl, rfl⟩
  · intro hsucc
    by_cases hempty : req.workflow.steps.isEmpty
    · rw [show (orchestrateSkills req db env).response.status = "error" from by
        simp only [orchestrateSkills, hempty, if_true]] at hsucc
      exact absurd hsucc (by decide)
    · have hempty' : req.workflow.steps.isEmpty = false := by simpa using hempty
      by_cases hcyc : checkCyclicDependencies req.workflow.steps
      · rw [show (orchestrateSkills req db env).response.status = "error" from by
          simp only [orchestrateSkills, hempty', Bool.false_eq_true, if_false,
            hcyc, if_true]] at hsucc
        exact absurd hsucc (by decide)
      · have hcyc' : checkCyclicDependencies req.workflow.steps = false := by
          simpa using hcyc
        by_cases hwid : req.workflow_id ∈ db.workflows
        · rw [show (orchestrateSkills req db env).response.status = "error" from by
            simp only [orchestrateSkills, hempty', Bool.false_eq_true, if_false,
              hcyc', hwid, if_true]] at hsucc
          exact absurd hsucc (by decide)
        · cases h0 : env.commitFail 0 with
          | some msg =>
            rw [show (orchestrateSkills req db env).response.status = "error" from by
              simp only [orchestrateSkills, hempty', Bool.false_eq_true,
                if_false, hcyc', hwid, h0]] at hsucc
            exact absurd hsucc (by decide)
          | none =>
            cases h1 : env.commitFail 1 with
            | some msg =>
              rw [show (orchestrateSkills req db env).response.status = "error" from by
                simp only [orchestrateSkills, hempty', Bool.false_eq_true,
                  if_false, hcyc', hwid, h0, h1]] at hsucc
              exact absurd hsucc (by decide)
            | none =>
              cases h2 : env.commitFail 2 with
              | none =>
                obtain ⟨-, -, hwf⟩ := orchestrate_success_shape req db env
                  hempty' hcyc' hwid h0 h1 h2
                rw [hwf]
                exact List.mem_append_right _ (List.mem_singleton.mpr rfl)
              | some msg =>
                cases h3 : env.commitFail 3 with
                | none =>
                  rw [show (orchestrateSkills req db env).response.status
                      = "error" from by
                    simp only [orchestrateSkills, hempty', Bool.false_eq_true,
                      if_false, hcyc', hwid, h0, h1, h2, h3]] at hsucc
                  exact absurd hsucc (by decide)
                | some msg2 =>
                  rw [show (orchestrateSkills req db env).response.status
                      = "error" from by
                    simp only [orchestrateSkills, hempty', Bool.false_eq_true,
                      if_false, hcyc', hwid, h0, h1, h2, h3]] at hsucc
                  exact absurd hsucc (by decide)

/-- Closed witness for C10: a duplicate id is rejected, and a fresh
orchestration persists its id. -/
theorem c10_workflow_id_unique_witness :
    (("wf-c6" : String) ∈ (["wf-c6"] : List String) →
      ¬ HasCycle c6Req.workflow.steps →
      ((orchestrateSkills c6Req ⟨[{ skill_id := "sk" }], ["wf-c6"], []⟩ c6Env).response.status = "error" ∧
       (orchestrateSkills c6Req ⟨[{ skill_id := "sk" }], ["wf-c6"], []⟩ c6Env).response.errorCode
          = some "WORKFLOW_999" ∧
       (orchestrateSkills c6Req ⟨[{ skill_id := "sk" }], ["wf-c6"], []⟩ c6Env).calls = [] ∧
       (orchestrateSkills c6Req ⟨[{ skill_id := "sk" }], ["wf-c6"], []⟩ c6Env).db
          = ⟨[{ skill_id := "sk" }], ["wf-c6"], []⟩)) ∧
    ((orchestrateSkills c6Req ⟨[{ skill_id := "sk" }], ["wf-c6"], []⟩ c6Env).response.status = "success" →
      ("wf-c6" : String) ∈ (orchestrateSkills c6Req ⟨[{ skill_id := "sk" }], ["wf-c6"], []⟩ c6Env).db.workflows) :=
  c10_workflow_id_unique c6Req ⟨[{ skill_id := "sk" }], ["wf-c6"], []⟩ c6Env

end WishubSkill
